import Mathlib

/-!
Shallow embedding of the Archon game backend (`src/backend/src/game.py` and
`src/backend/src/pqueue.py`) together with proofs about its specification.

Modelling conventions:
* Python `int` becomes `Int`/`Nat`.
* Python `float` arithmetic on the hex kernel is embedded exactly: all call
  sites feed either rational values (embedded as `Rat`) or elements of the
  quadratic field `Q[sqrt 3]` (embedded as the pair type `Q3` below).  The
  spec states the geometric laws as exact laws, so the exact embedding is the
  faithful reading.
* Python dictionaries with object values are embedded as functions into
  `Option`; entity references are embedded as entity ids resolved through the
  entity table (object mutation is then table update, which models Python's
  shared mutable objects faithfully).
* `heapq` (the standard library binary min-heap used by `pqueue.py`) is
  embedded through its contract: the heap is kept as a list sorted by the
  comparison key.  Heap entries are `[priority, counter, item]` lists whose
  counter components are pairwise distinct, so the comparison order on entries
  is total and the pop order of the real binary heap coincides with the pop
  order of the sorted list.
* `random.shuffle` is an oracle parameter `perm : Nat -> List Position -> List Position`.
* Exceptions become `Except`/`Option` results; `none`/`.error` marks the raise.
-/

namespace Archon

/-- Pointwise update of a function-backed dictionary (`d[k] = v` / `d.pop(k)`). -/
def fupd {κ : Type} {ν : Type} [DecidableEq κ] (m : κ → Option ν) (k : κ) (v : Option ν) :
    κ → Option ν :=
  fun x => if x = k then v else m x

/-- `list.pop()` in Python: remove and return the *last* element. -/
def pyPop {α : Type} (l : List α) : Option (α × List α) :=
  match l.reverse with
  | [] => none
  | x :: rest => some (x, rest.reverse)

/-! ## Hex coordinate kernel (`game.py` lines 54-184) -/

/-- Axial hex coordinate (`Position`, game.py line 54): two signed integers. -/
structure Position where
  q : Int
  r : Int
deriving DecidableEq, Repr

instance : Inhabited Position := ⟨⟨0, 0⟩⟩

/-- The six axial neighbor offsets in source order (game.py lines 74-82). -/
def Position.neighbors (p : Position) : List Position :=
  [⟨p.q, p.r - 1⟩, ⟨p.q + 1, p.r - 1⟩, ⟨p.q + 1, p.r⟩,
   ⟨p.q, p.r + 1⟩, ⟨p.q - 1, p.r + 1⟩, ⟨p.q - 1, p.r⟩]

/-- `Position.distance` (game.py lines 121-123):
`(|dq| + |dq+dr| + |dr|) // 2` of the difference vector. -/
def hexDist (a b : Position) : Nat :=
  (((a.q - b.q).natAbs + (a.q - b.q + (a.r - b.r)).natAbs + (a.r - b.r).natAbs)) / 2

/-- Python `round` on an exact rational: round half to even (banker's rounding). -/
def pyRound (x : Rat) : Int :=
  let n := ⌊x⌋
  let f := x - n
  if f < 1/2 then n
  else if 1/2 < f then n + 1
  else if 2 ∣ n then n else n + 1

/-- `Position.from_floats` (game.py lines 140-149) on rational inputs:
round both axes, then correct the axis with the larger residual. -/
def fromFloats (q r : Rat) : Position :=
  let qGrid := pyRound q
  let rGrid := pyRound r
  let q' := q - qGrid
  let r' := r - rGrid
  if |r'| ≤ |q'| then ⟨qGrid + pyRound (q' + (1/2) * r'), rGrid⟩
  else ⟨qGrid, rGrid + pyRound (r' + (1/2) * q')⟩

/-- `Position.lerp` (game.py lines 151-155) on a rational parameter. -/
def Position.lerp (a b : Position) (t : Rat) : Position :=
  fromFloats ((a.q : Rat) + ((b.q : Rat) - (a.q : Rat)) * t)
    ((a.r : Rat) + ((b.r : Rat) - (a.r : Rat)) * t)

/-- `Position.line_to` (game.py lines 157-163).  The source computes
`interval = 1/distance` with integer `distance`; when `distance = 0`
(`self = other`) Python raises `ZeroDivisionError`, modelled as `none`.
Otherwise the result collects `lerp(other, i/distance)` for `i = 0..distance`. -/
def lineTo (a b : Position) : Option (List Position) :=
  let d := hexDist a b
  if d = 0 then none
  else some ((List.range (d + 1)).map (fun i : Nat => a.lerp b ((i : Rat) / (d : Rat))))

/-! ### The quadratic field Q[sqrt 3] for the pixel conversion

`Position.x` multiplies integer coordinates by `sqrt(3)`, so pixel values live
in the field `Q[sqrt 3]`; `a + b*sqrt 3` is represented by the pair `(a, b)`.
All field operations below are the standard exact operations of `Q[sqrt 3]`,
hence they model the real-number arithmetic of the source exactly. -/

structure Q3 where
  a : Rat
  b : Rat
deriving DecidableEq, Repr

namespace Q3

def ofRat (x : Rat) : Q3 := ⟨x, 0⟩
def ofInt (n : Int) : Q3 := ⟨(n : Rat), 0⟩

/-- The adjoined element `sqrt 3`. -/
def sqrt3 : Q3 := ⟨0, 1⟩

instance : Zero Q3 := ⟨⟨0, 0⟩⟩
instance : One Q3 := ⟨⟨1, 0⟩⟩
instance : Add Q3 := ⟨fun x y => ⟨x.a + y.a, x.b + y.b⟩⟩
instance : Neg Q3 := ⟨fun x => ⟨-x.a, -x.b⟩⟩
instance : Sub Q3 := ⟨fun x y => ⟨x.a - y.a, x.b - y.b⟩⟩
instance : Mul Q3 := ⟨fun x y => ⟨x.a * y.a + 3 * (x.b * y.b), x.a * y.b + x.b * y.a⟩⟩

/-- Exact inverse in `Q[sqrt 3]` (`(a + b√3)⁻¹ = (a - b√3) / (a² - 3b²)`;
the denominator vanishes only at `0` because `3` is not a rational square). -/
instance : Inv Q3 := ⟨fun x =>
  let d := x.a ^ 2 - 3 * x.b ^ 2
  ⟨x.a / d, -x.b / d⟩⟩

instance : Div Q3 := ⟨fun x y => x * y⁻¹⟩

/-- Sign test for `a + b*sqrt 3 ≥ 0`, decided exactly by comparing squares. -/
def nonneg (x : Q3) : Bool :=
  if 0 ≤ x.a then
    if 0 ≤ x.b then true else decide (3 * x.b ^ 2 ≤ x.a ^ 2)
  else
    if 0 ≤ x.b then decide (x.a ^ 2 ≤ 3 * x.b ^ 2) else false

/-- `⌊b * sqrt 3⌋` for a positive rational `b`: the largest `n ≥ 0` with
`n² ≤ 3b²`, computed from the integer square root of `⌊3b²⌋`. -/
def sqrt3FloorPos (b : Rat) : Int :=
  (Nat.sqrt (Int.toNat ⌊3 * b ^ 2⌋) : Int)

/-- `⌊b * sqrt 3⌋` for any rational `b` (for `b ≠ 0` the value is irrational,
so the negative case is `-⌊|b| sqrt 3⌋ - 1`). -/
def sqrt3Floor (b : Rat) : Int :=
  if b = 0 then 0
  else if 0 < b then sqrt3FloorPos b
  else -sqrt3FloorPos (-b) - 1

/-- Exact floor on `Q[sqrt 3]`.  `⌊a⌋ + ⌊b√3⌋` is within one of the true
floor, and the final comparison is decided exactly by `nonneg`. -/
def q3floor (x : Q3) : Int :=
  if x.b = 0 then ⌊x.a⌋
  else
    let m := ⌊x.a⌋ + sqrt3Floor x.b
    if nonneg (x - ofInt (m + 1)) then m + 1 else m

/-- Python `round` on `Q[sqrt 3]`.  On rational values this is banker's
rounding; on irrational values (b ≠ 0) a tie is impossible and the value
rounds to the nearest integer. -/
def pyRound3 (x : Q3) : Int :=
  if x.b = 0 then pyRound x.a
  else
    let n := q3floor x
    if nonneg ((x - ofInt n) - ofRat (1/2)) then n + 1 else n

/-- Absolute value on `Q[sqrt 3]`. -/
def q3abs (x : Q3) : Q3 := if nonneg x then x else -x

/-- `x ≤ y` on `Q[sqrt 3]` as a Bool. -/
def ble (x y : Q3) : Bool := nonneg (y - x)

end Q3

/-- `GRID_SIZE` (game.py line 22). -/
def GRID_SIZE : Rat := 100

/-- `Position.x` (game.py lines 65-67):
`GRID_SIZE * 1.5 * (sqrt(3) * q + sqrt(3)/2 * r)`. -/
def Position.px (p : Position) : Q3 :=
  Q3.ofRat GRID_SIZE * Q3.ofRat (3/2) *
    (Q3.sqrt3 * Q3.ofInt p.q + Q3.sqrt3 / Q3.ofRat 2 * Q3.ofInt p.r)

/-- `Position.y` (game.py lines 69-71): `GRID_SIZE * 1.5 * (3/2 * r)`. -/
def Position.py (p : Position) : Q3 :=
  Q3.ofRat GRID_SIZE * Q3.ofRat (3/2) * (Q3.ofRat (3/2) * Q3.ofInt p.r)

/-- `Position.from_floats` (game.py lines 140-149) on `Q[sqrt 3]` inputs,
exactly as the rational version but with exact `Q[sqrt 3]` comparisons. -/
def fromFloats3 (q r : Q3) : Position :=
  let qGrid := Q3.pyRound3 q
  let rGrid := Q3.pyRound3 r
  let q' := q - Q3.ofInt qGrid
  let r' := r - Q3.ofInt rGrid
  if Q3.ble (Q3.q3abs r') (Q3.q3abs q') then
    ⟨qGrid + Q3.pyRound3 (q' + Q3.ofRat (1/2) * r'), rGrid⟩
  else
    ⟨qGrid, rGrid + Q3.pyRound3 (r' + Q3.ofRat (1/2) * q')⟩

/-- `Position.from_pixels` (game.py lines 171-177):
`from_floats((sqrt(3)/3 * x - 1/3 * y) / GRID_SIZE, (2/3 * y) / GRID_SIZE)`. -/
def fromPixels (x y : Q3) : Position :=
  fromFloats3 ((Q3.sqrt3 / Q3.ofRat 3 * x - Q3.ofRat (1/3) * y) / Q3.ofRat GRID_SIZE)
    ((Q3.ofRat (2/3) * y) / Q3.ofRat GRID_SIZE)

/-! ## Resource pools and `Game.spend` (game.py lines 1126-1137) -/

/-- `ResourceType` (game.py lines 38-45); `null` is the empty string value. -/
inductive ResourceType where
  | null | food | gold | stone | wood | aether
deriving DecidableEq, Repr

/-- The five real-valued resource pool attributes of `Game` (game.py 1044-1048). -/
structure Pools where
  food : Rat
  gold : Rat
  stone : Rat
  wood : Rat
  aether : Rat
deriving DecidableEq, Repr

/-- `getattr(self, str(resource_type))`: `str(Null) = ""` names no attribute,
which raises `AttributeError`, modelled as `none`. -/
def getPool (p : Pools) : ResourceType → Option Rat
  | .null => none
  | .food => some p.food
  | .gold => some p.gold
  | .stone => some p.stone
  | .wood => some p.wood
  | .aether => some p.aether

/-- `setattr(self, str(resource_type), v)`.  Every call site reads the pool
with `getPool` first, so the `null` case is unreachable; it keeps `p`. -/
def setPool (p : Pools) : ResourceType → Rat → Pools
  | .null, _ => p
  | .food, v => { p with food := v }
  | .gold, v => { p with gold := v }
  | .stone, v => { p with stone := v }
  | .wood, v => { p with wood := v }
  | .aether, v => { p with aether := v }

/-- The two exception kinds `Game.spend` can raise: `ClientError` for an
insufficient pool, `AttributeError` for a cost naming the null resource. -/
inductive SpendErr where
  | insufficient | attrMissing
deriving DecidableEq, Repr

/-- Phase 1 of `Game.spend` (game.py lines 1127-1130): scan all costs in
order and report the first failure; this phase writes nothing. -/
def spendCheck : List (ResourceType × Int) → Pools → Option SpendErr
  | [], _ => none
  | (rt, amt) :: rest, p =>
    match getPool p rt with
    | none => some .attrMissing
    | some avail => if avail < (amt : Rat) then some .insufficient else spendCheck rest p

/-- Phase 2 of `Game.spend` (game.py lines 1131-1133): debit each cost in
order.  A raise mid-way (only possible for a null resource) carries the
partially debited pools. -/
def spendDebit : List (ResourceType × Int) → Pools → Except (SpendErr × Pools) Pools
  | [], p => .ok p
  | (rt, amt) :: rest, p =>
    match getPool p rt with
    | none => .error (.attrMissing, p)
    | some avail => spendDebit rest (setPool p rt (avail - (amt : Rat)))

/-- `Game.spend(*costs)` (game.py lines 1126-1133): verify every cost, then
debit every cost.  An `.error` result carries the pools at raise time. -/
def spend (costs : List (ResourceType × Int)) (p : Pools) : Except (SpendErr × Pools) Pools :=
  match spendCheck costs p with
  | some e => .error (e, p)
  | none => spendDebit costs p

/-- `Game.add_resource` (game.py lines 1135-1137): unconditional addition
(the broadcast is out of modeled scope). -/
def addResource (p : Pools) (rt : ResourceType) (amt : Int) : Option Pools :=
  match getPool p rt with
  | none => none
  | some avail => some (setPool p rt (avail + (amt : Rat)))

/-- Sum of the listed amounts for one resource in a cost list. -/
def costSum : List (ResourceType × Int) → ResourceType → Int
  | [], _ => 0
  | (rt', amt) :: rest, rt => (if rt' = rt then amt else 0) + costSum rest rt

/-! ## The indexed priority queue (`pqueue.py`) -/

/-- One heap entry `[priority, counter, item]`; `item = none` is the
tombstone produced by `PriorityQueue.remove` (pqueue.py line 38). -/
structure PQEntry (α : Type) where
  priority : Nat
  seq : Nat
  item : Option α
deriving DecidableEq, Repr

/-- Strict comparison of `(priority, counter)` keys; within one queue the
counters are pairwise distinct so this order is total on live entries. -/
def keyLt (p₁ s₁ p₂ s₂ : Nat) : Bool :=
  decide (p₁ < p₂) || (decide (p₁ = p₂) && decide (s₁ < s₂))

/-- `heapq.heappush` on the sorted-list model of the binary heap. -/
def heapPush {α : Type} : List (PQEntry α) → PQEntry α → List (PQEntry α)
  | [], e => [e]
  | x :: xs, e => if keyLt e.priority e.seq x.priority x.seq then e :: x :: xs
                  else x :: heapPush xs e

/-- `PriorityQueue` (pqueue.py lines 10-14): heap, item-to-entry side table
(holding the live entry's priority and counter), and the counter source. -/
structure PQueue (α : Type) where
  heap : List (PQEntry α)
  entries : List (α × Nat × Nat)
  counter : Nat
deriving Repr

def PQueue.empty {α : Type} : PQueue α := ⟨[], [], 0⟩

/-- Replace the side-table value of key `x`. -/
def replaceEntry {α : Type} [DecidableEq α] (l : List (α × Nat × Nat)) (x : α) (v : Nat × Nat) :
    List (α × Nat × Nat) :=
  l.map (fun e => if e.1 = x then (x, v) else e)

/-- `del self.entries[item]` (pqueue.py line 61). -/
def removeEntryKey {α : Type} [DecidableEq α] (l : List (α × Nat × Nat)) (x : α) :
    List (α × Nat × Nat) :=
  l.filter (fun e => !(decide (e.1 = x)))

/-- `PriorityQueue.add` (pqueue.py lines 19-32): re-prioritizing an existing
item tombstones its heap entry (via `remove`, line 38) and pushes a fresh
entry; adding with the unchanged priority is a no-op. -/
def PQueue.add {α : Type} [DecidableEq α] (q : PQueue α) (x : α) (p : Nat) : PQueue α :=
  match List.lookup x q.entries with
  | some (p₀, s₀) =>
    if p₀ = p then q
    else
      let tomb := q.heap.map (fun e => if e.seq = s₀ then { e with item := none } else e)
      { heap := heapPush tomb ⟨p, q.counter, some x⟩,
        entries := replaceEntry q.entries x (p, q.counter),
        counter := q.counter + 1 }
  | none =>
      { heap := heapPush q.heap ⟨p, q.counter, some x⟩,
        entries := q.entries ++ [(x, p, q.counter)],
        counter := q.counter + 1 }

/-- `PriorityQueue.__bool__` (pqueue.py lines 16-17): `bool(self.heap)` —
note that tombstoned entries count. -/
def PQueue.isNonempty {α : Type} (q : PQueue α) : Bool := !q.heap.isEmpty

/-- The heappop-and-skip-tombstones loop of `PriorityQueue.pop`
(pqueue.py lines 58-62) acting on the heap list; returns the popped live
entry and the remaining heap, or `none` for the final `raise IndexError`. -/
def popHeap {α : Type} : List (PQEntry α) → Option ((Nat × Nat × α) × List (PQEntry α))
  | [] => none
  | e :: rest =>
    match e.item with
    | none => popHeap rest
    | some x => some ((e.priority, e.seq, x), rest)

/-- `PriorityQueue.pop` (pqueue.py lines 53-63) returning the popped entry's
key as well (the source returns only the item component). -/
def PQueue.popEntry {α : Type} [DecidableEq α] (q : PQueue α) :
    Option ((Nat × Nat × α) × PQueue α) :=
  (popHeap q.heap).map (fun te =>
    (te.1, { heap := te.2, entries := removeEntryKey q.entries te.1.2.2, counter := q.counter }))

/-- `PriorityQueue.pop` exactly as the source returns it. -/
def PQueue.popItem {α : Type} [DecidableEq α] (q : PQueue α) : Option (α × PQueue α) :=
  q.popEntry.map (fun r => (r.1.2.2, r.2))

/-- Drain the queue with `pop()` until it raises, collecting popped entries;
the fuel argument bounds the recursion (each pop shortens the heap). -/
def popLoop {α : Type} [DecidableEq α] : Nat → PQueue α → List (Nat × Nat × α)
  | 0, _ => []
  | fuel + 1, q =>
    match q.popEntry with
    | none => []
    | some (t, q') => t :: popLoop fuel q'

/-- All pops until exhaustion. -/
def popAllEntries {α : Type} [DecidableEq α] (q : PQueue α) : List (Nat × Nat × α) :=
  popLoop q.heap.length q

/-- Run a sequence of `add(item, priority)` calls from the empty queue. -/
def addAll {α : Type} [DecidableEq α] (ops : List (α × Nat)) : PQueue α :=
  ops.foldl (fun q op => q.add op.1 op.2) PQueue.empty

/-- The live entries of a heap list in heap order. -/
def liveEntries {α : Type} (l : List (PQEntry α)) : List (Nat × Nat × α) :=
  l.filterMap (fun e => e.item.map (fun x => (e.priority, e.seq, x)))

/-! ## Entities and the occupancy map (game.py lines 938-1290)

Entity references are embedded as ids resolved through `ents`; `emap` stores
the occupant's id.  Fields not touched by the claims under verification
(hp, images, behaviours, vision polygon, broadcasts) are out of modeled
scope; the structure of every translated operation follows the source. -/

/-- The claim-relevant state of `Entity` (game.py lines 938-957). -/
structure EntityS where
  id : Nat
  removed : Bool
  template : Bool
  tag : Nat          -- `entity_tag` bitmask: Unit=1, Resource=2, Structure=4
  alignment : Nat    -- Enemy=0, Neutral=1, Player=2
  pos : Position
deriving DecidableEq, Repr

/-- Pointwise update of a Bool-valued id set. -/
def bupd (m : Nat → Bool) (k : Nat) (v : Bool) : Nat → Bool :=
  fun x => if x = k then v else m x

/-- The claim-relevant state of `Game` (game.py lines 1025-1050). -/
structure GameS where
  ents : Nat → Option EntityS
  emap : Position → Option Nat
  structures : Nat → Bool
  units : Nat → Bool
  resourcesView : Nat → Bool
  queued : Nat → Bool

def emptyGame : GameS :=
  ⟨fun _ => none, fun _ => none, fun _ => false, fun _ => false, fun _ => false, fun _ => false⟩

/-- `Game.on_new_entity` (game.py lines 1234-1251): insert into the entity
table and the occupancy map, then into exactly one derived view; the
source's `if`/`elif`/`elif` chain (Structure, then Unit, then Resource) is
written out as one guard per view field.  Vision, broadcast, label indexing
and `on_create` hooks do not touch the modeled state. -/
def onNewEntity (s : GameS) (e : EntityS) : GameS :=
  { ents := fupd s.ents e.id (some e),
    emap := fupd s.emap e.pos (some e.id),
    structures := if e.tag &&& 4 ≠ 0 then bupd s.structures e.id true else s.structures,
    units := if e.tag &&& 4 = 0 ∧ e.tag &&& 1 ≠ 0 then bupd s.units e.id true else s.units,
    resourcesView := if e.tag &&& 4 = 0 ∧ e.tag &&& 1 = 0 ∧ e.tag &&& 2 ≠ 0 then
      bupd s.resourcesView e.id true else s.resourcesView,
    queued := s.queued }

/-- The occupancy test plus `on_new_entity` shared by `Game.add_entity`
(game.py lines 1217-1232) and `Game.build_entity` (lines 1192-1215): raise
(`.error`) when the position is occupied, publish the fresh entity otherwise.
Template copying and id generation are handled by the `Step` relation's
side conditions on the inserted entity. -/
def addEntity (s : GameS) (e : EntityS) : Except Unit GameS :=
  if (s.emap e.pos).isSome then .error () else .ok (onNewEntity s e)

/-- `Game.move_entity` (game.py lines 1253-1264): no-op when the entity is
already there; raise `ValueError` when the destination is occupied; else
re-index the map, mutate the entity's position (table write-back models the
shared object) and queue an update. -/
def moveEntity (s : GameS) (e : EntityS) (pos : Position) : Except Unit GameS :=
  if e.pos = pos then .ok s
  else if (s.emap pos).isSome then .error ()
  else .ok { s with
    emap := fupd (fupd s.emap e.pos none) pos (some e.id),
    ents := fupd s.ents e.id (some { e with pos := pos }),
    queued := bupd s.queued e.id true }

/-- `Game.move_entity` together with the mutated entity object. -/
def moveEntityE (s : GameS) (e : EntityS) (pos : Position) : Except Unit (GameS × EntityS) :=
  (moveEntity s e pos).map (fun s' => (s', { e with pos := pos }))

/-- `Game.remove_entity` (game.py lines 1266-1278): tombstone the object
(which thereby leaves the table), pop the entity table, the occupancy map
and the derived view (the `if`/`elif` chain written per field as above).
The `on_remove` behaviour hooks touch none of the modeled state. -/
def removeEntity (s : GameS) (e : EntityS) : GameS :=
  { ents := fupd s.ents e.id none,
    emap := fupd s.emap e.pos none,
    structures := if e.tag &&& 4 ≠ 0 then bupd s.structures e.id false else s.structures,
    units := if e.tag &&& 4 = 0 ∧ e.tag &&& 1 ≠ 0 then bupd s.units e.id false else s.units,
    resourcesView := if e.tag &&& 4 = 0 ∧ e.tag &&& 1 = 0 ∧ e.tag &&& 2 ≠ 0 then
      bupd s.resourcesView e.id false else s.resourcesView,
    queued := s.queued }

/-- The fortress instance `Game.place_fortress` creates at the origin
(game.py line 1165); the Fortress template carries the Structure tag. -/
def fortressEnt : EntityS :=
  { id := 0, removed := false, template := false, tag := 4, alignment := 2, pos := ⟨0, 0⟩ }

/-- The state right after `place_fortress` published the fortress and wrote
the six base-plate cells `map[n] = fortress` for the neighbors of the origin
(game.py lines 1164-1167).  Towers, portal and resources then arrive through
ordinary `add_entity` steps. -/
def initGame : GameS :=
  let s := onNewEntity emptyGame fortressEnt
  { s with
    emap := (Position.neighbors ⟨0, 0⟩).foldl (fun m p => fupd m p (some fortressEnt.id)) s.emap }

/-- One successful state-mutating operation of the game, as fired by the
running system: a fresh-id, fresh-position entity publication, a move of a
live entity, or a removal of a live entity. -/
inductive Step : GameS → GameS → Prop where
  | add (s : GameS) (e : EntityS) (s' : GameS)
      (hfresh : s.ents e.id = none)
      (hrm : e.removed = false) (htm : e.template = false)
      (hok : addEntity s e = .ok s') : Step s s'
  | move (s : GameS) (eid : Nat) (e : EntityS) (pos : Position) (s' : GameS)
      (hlive : s.ents eid = some e)
      (hok : moveEntity s e pos = .ok s') : Step s s'
  | remove (s : GameS) (eid : Nat) (e : EntityS)
      (hlive : s.ents eid = some e) : Step s (removeEntity s e)

/-- Game states reachable from game creation by the mutating operations. -/
inductive Reachable : GameS → Prop where
  | init : Reachable initGame
  | step {s s' : GameS} : Reachable s → Step s s' → Reachable s'

/-! ## The bounded ε-admissible A* pathfinder (game.py lines 1292-1338) -/

/-- Loop state of `Game.path_between`; `expanded` additionally records the
popped nodes (the source's `steps` counter is its length). -/
structure AState where
  queue : PQueue Position
  prev : Position → Option (Option Position)
  gdist : Position → Option Nat
  best : Position
  bestD : Nat
  expanded : List Position

/-- The body of the neighbor loop (game.py lines 1328-1336): skip occupied
cells; on a strictly better g-value record parent and distance and
(re-)queue with priority `g + 2 * h`. -/
def relaxNeighbor (emap : Position → Option Nat) (target pos : Position) (g : Nat)
    (st : AState) (nb : Position) : AState :=
  if (emap nb).isSome then st
  else
    let d := g + 1
    let better := match st.gdist nb with
      | none => true
      | some cur => decide (d < cur)
    if better then
      { st with
        prev := fupd st.prev nb (some (some pos)),
        gdist := fupd st.gdist nb (some d),
        queue := st.queue.add nb (d + 2 * hexDist target nb) }
    else st

/-- The `while queue and steps < limit` loop of `Game.path_between`
(game.py lines 1317-1336); the fuel is `limit - steps`.  `none` models an
uncaught exception: `IndexError` when `pop` hits an all-tombstone heap, or
`KeyError` on a `least_distances` miss (unreachable). -/
def astarLoop (emap : Position → Option Nat) (target : Position)
    (perm : Nat → List Position → List Position) :
    Nat → AState → Option AState
  | 0, st => some st
  | fuel + 1, st =>
    if st.queue.isNonempty then
      match st.queue.popEntry with
      | none => none
      | some (t, q') =>
        let pos := t.2.2
        let st := { st with queue := q', expanded := st.expanded ++ [pos] }
        if pos = target then some { st with best := target }
        else
          let dt := hexDist target pos
          let st := if dt < st.bestD then { st with best := pos, bestD := dt } else st
          match st.gdist pos with
          | none => none
          | some g =>
            astarLoop emap target perm fuel
              ((perm st.expanded.length pos.neighbors).foldl
                (relaxNeighbor emap target pos g) st)
    else some st

/-- `Game.resolve_path` (game.py lines 1292-1299): walk the parent chain
from the target back to the start, then reverse.  The fuel bounds the chain
(g-values strictly decrease along it); `none` models a `KeyError`. -/
def resolvePath (prev : Position → Option (Option Position)) (start : Position) :
    Nat → Position → Option (List Position)
  | 0, _ => none
  | fuel + 1, cursor =>
    if cursor = start then some []
    else match prev cursor with
      | none => none
      | some none => none
      | some (some par) => (resolvePath prev start fuel par).map (· ++ [cursor])

/-- `Game.path_between` (game.py lines 1301-1338) with the final loop state
exposed; `perm` is the `random.shuffle` oracle of `random_neighbors`. -/
def pathBetweenFull (emap : Position → Option Nat) (start target : Position) (limit : Nat)
    (perm : Nat → List Position → List Position) : Option (List Position × AState) :=
  let st0 : AState :=
    { queue := PQueue.empty.add start (2 * hexDist target start),
      prev := fupd (fun _ => none) start (some none),
      gdist := fupd (fun _ => none) start (some 0),
      best := start,
      bestD := hexDist target start,
      expanded := [] }
  match astarLoop emap target perm limit st0 with
  | none => none
  | some st => (resolvePath st.prev start (limit + 1) st.best).map (fun path => (path, st))

/-- `Game.path_between` as the source returns it. -/
def pathBetween (emap : Position → Option Nat) (start target : Position) (limit : Nat)
    (perm : Nat → List Position → List Position) : Option (List Position) :=
  (pathBetweenFull emap start target limit perm).map (·.1)

/-- The identity shuffle oracle (one legal outcome of `random.shuffle`). -/
def idPerm : Nat → List Position → List Position := fun _ l => l

/-! ## `PathingBehaviour` (game.py lines 711-763) -/

/-- The state of `PathingBehaviour`: the manual target and the reserved step
stack (`self.path`, popped from the back by `list.pop()`). -/
structure PathingS where
  targetPos : Option Position
  path : List Position
deriving DecidableEq, Repr

/-- `PathingBehaviour.move_toward` (game.py lines 745-763): plan with
`path_between`, truncate to `path[0 : len(path)//5 + 1]`, then either move
directly (single kept step) or store the reversed remainder and move to its
popped last element.  `none` models an uncaught exception (planner crash or
`ValueError` from `move_entity`). -/
def moveToward (g : GameS) (b : PathingS) (e : EntityS) (t : Position) (limit : Nat)
    (perm : Nat → List Position → List Position) :
    Option (Bool × PathingS × GameS × EntityS) :=
  match pathBetween g.emap e.pos t limit perm with
  | none => none
  | some path =>
    if path.isEmpty then some (false, b, g, e)
    else
      let kept := path.take (path.length / 5 + 1)
      match kept with
      | [] => none
      | [x] =>
        match moveEntityE g e x with
        | .error _ => none
        | .ok (g', e') => some (true, b, g', e')
      | _ :: _ :: _ =>
        let stored := kept.reverse
        match pyPop stored with
        | none => none
        | some (nxt, rest) =>
          match moveEntityE g e nxt with
          | .error _ => none
          | .ok (g', e') => some (true, { b with path := rest }, g', e')

/-- `PathingBehaviour.on_activate` (game.py lines 722-743): consume the
reserved step stack first (clearing it if the stored next step is now
occupied, then falling through), else move toward the manual target.
The base class `on_activate` returns `None` (falsy), so the `super()` call
never short-circuits. -/
def pathingActivate (g : GameS) (b : PathingS) (e : EntityS) (limit : Nat)
    (perm : Nat → List Position → List Position) :
    Option (Bool × PathingS × GameS × EntityS) :=
  let targetStep : PathingS → Option (Bool × PathingS × GameS × EntityS) := fun b =>
    match b.targetPos with
    | some t =>
      if e.pos = t then some (false, { b with targetPos := none }, g, e)
      else
        match moveToward g b e t limit perm with
        | none => none
        | some (_, b', g', e') => some (true, b', g', e')
    | none => some (false, b, g, e)
  match pyPop b.path with
  | some (nxt, rest) =>
    if (g.emap nxt).isSome then targetStep { b with path := [] }
    else
      match moveEntityE g e nxt with
      | .error _ => none
      | .ok (g', e') => some (true, { b with path := rest }, g', e')
  | none => targetStep b

/-! ## `TransmuteBehaviour` (game.py lines 482-548) -/

/-- `resource_values` (game.py lines 482-488); indexing with `Null` would
raise `KeyError`, modelled as `none`. -/
def resourceValues : ResourceType → Option Rat
  | .null => none
  | .food => some (1/2)
  | .stone => some (1/2)
  | .wood => some (1/2)
  | .gold => some 1
  | .aether => some 5

/-- The claim-relevant state of `TransmuteBehaviour` (game.py lines 491-498). -/
structure TransmuteS where
  currentRate : Int
  efficiency : Rat
  fromR : ResourceType
  toR : ResourceType
  remainder : Rat
deriving DecidableEq, Repr

/-- Python `int()` on a rational: truncation toward zero. -/
def pyTrunc (x : Rat) : Int := if 0 ≤ x then ⌊x⌋ else ⌈x⌉

/-- `TransmuteBehaviour.on_activate` (game.py lines 526-548): the remainder
is updated before spending; an insufficient balance (`ClientError`) fails
the activation after that update; on success the purchased goods are
credited.  The second component instruments the result with the amount
passed to `add_resource` (`0` on a failed activation); the source returns
only the Bool.  `none` models an uncaught exception (never reached past the
null checks). -/
def transmuteActivate (b : TransmuteS) (p : Pools) :
    Option (Bool × Int × TransmuteS × Pools) :=
  if b.fromR = .null ∨ b.toR = .null then some (false, 0, b, p)
  else if b.currentRate = 0 then some (false, 0, b, p)
  else
    match resourceValues b.fromR, resourceValues b.toR with
    | some vFrom, some vTo =>
      let goodsSold := b.currentRate
      let value := (goodsSold : Rat) * vFrom
      let frac := value / vTo * b.efficiency + b.remainder
      let goods := pyTrunc frac
      let b' := { b with remainder := frac - (goods : Rat) }
      match spend [(b.fromR, goodsSold)] p with
      | .error (.insufficient, _) => some (false, 0, b', p)
      | .error (.attrMissing, _) => none
      | .ok p' =>
        match addResource p' b.toR goods with
        | none => none
        | some p'' => some (true, goods, b', p'')
    | _, _ => none

/-- Iterate `transmuteActivate`, collecting each activation's credited
amount. -/
def transmuteIter : Nat → TransmuteS → Pools → Option (List Int × TransmuteS × Pools)
  | 0, b, p => some ([], b, p)
  | n + 1, b, p =>
    match transmuteActivate b p with
    | none => none
    | some (_, credit, b', p') =>
      (transmuteIter n b' p').map (fun r => (credit :: r.1, r.2.1, r.2.2))

/-! ## Game lifecycle (`Game.on_tick`, game.py lines 1091-1107) -/

/-- `GameState` (game.py lines 48-51). -/
inductive GState where
  | lobby | active | finished
deriving DecidableEq, Repr

/-- The lifecycle-relevant state of a `Game` entry in the `games` table. -/
structure GameLite where
  inactive : Bool
  timeSinceActive : Rat
  state : GState
  runtime : Rat
deriving DecidableEq, Repr

/-- `Game.on_active_tick` restricted to the lifecycle state (game.py lines
1109-1124): entity ticking and update flushing touch neither `inactive`,
`time_since_active`, the subscribers observation, nor the `games` table. -/
def activeTick (g : GameLite) (delta : Rat) : GameLite :=
  { g with runtime := g.runtime + delta }

/-- `Game.on_tick` (game.py lines 1091-1107).  `hasSubs` is the tick's
observation of the subscriber set; `none` models `Game.destroy` popping the
game from the `games` table (game.py lines 1056-1057). -/
def gameTick (g : GameLite) (delta : Rat) (hasSubs : Bool) : Option GameLite :=
  let afterIdle : GameLite → Option GameLite := fun g =>
    if !hasSubs then some { g with inactive := true, timeSinceActive := 0 }
    else if g.state = .active then some (activeTick g delta)
    else some g
  if g.inactive then
    if hasSubs then afterIdle { g with inactive := false }
    else
      let t := g.timeSinceActive + delta
      if 30 < t then none else some { g with timeSinceActive := t }
  else afterIdle g

/-- Drive a sequence of ticks; once destroyed the game stays unreachable. -/
def runGame : Option GameLite → List (Rat × Bool) → Option GameLite
  | none, _ => none
  | some g, [] => some g
  | some g, (d, hs) :: rest => runGame (gameTick g d hs) rest

/-! ## Spec-side definitions (named per the spec's words, for comparison) -/

/-- Spec model of the priority queue's observable bookkeeping: the surviving
`(item, priority, push counter)` triple of every added item.  "add(x, p2)
replaces the prior priority of x"; an add repeating the current priority
survives as the original entry. -/
def survivingStep {α : Type} [DecidableEq α] :
    List (α × Nat × Nat) × Nat → α × Nat → List (α × Nat × Nat) × Nat
  | (l, c), (x, p) =>
    match List.lookup x l with
    | some (p₀, _) =>
      if p₀ = p then (l, c) else (replaceEntry l x (p, c), c + 1)
    | none => (l ++ [(x, p, c)], c + 1)

/-- Fold `survivingStep` over an add sequence. -/
def survivingEntries {α : Type} [DecidableEq α] (ops : List (α × Nat)) : List (α × Nat × Nat) :=
  (ops.foldl survivingStep ([], 0)).1

/-- Insertion sort of `(item, priority, seq)` triples by `(priority, seq)`. -/
def insertByKey {α : Type} : Nat × Nat × α → List (Nat × Nat × α) → List (Nat × Nat × α)
  | e, [] => [e]
  | e, x :: xs => if keyLt e.1 e.2.1 x.1 x.2.1 then e :: x :: xs else x :: insertByKey e xs

/-- Sort by `(priority, seq)`; on pairwise distinct seqs this is the unique
strictly sorted arrangement. -/
def sortByKey {α : Type} (l : List (Nat × Nat × α)) : List (Nat × Nat × α) :=
  l.foldr insertByKey []

/-- Spec model of one Transmute activation, exactly as §4.6 words it:
buys `⌊(goods_sold * v_from * efficiency + remainder) / v_to⌋`, carrying the
fractional residue of that division to the next activation. -/
def specTransmuteStep (rate : Int) (vFrom vTo eff rem : Rat) : Int × Rat :=
  let bought := ⌊((rate : Rat) * vFrom * eff + rem) / vTo⌋
  (bought, (rate : Rat) * vFrom * eff + rem - (bought : Rat) * vTo)

/-- Iterate the spec model, collecting the credited amounts. -/
def specTransmuteRun (rate : Int) (vFrom vTo eff : Rat) : Nat → Rat → List Int × Rat
  | 0, rem => ([], rem)
  | n + 1, rem =>
    let s := specTransmuteStep rate vFrom vTo eff rem
    let r := specTransmuteRun rate vFrom vTo eff n s.2
    (s.1 :: r.1, r.2)

/-! ## Named invariants and concrete instances used by the theorems -/

/-- Strict `(priority, counter)` order on heap entries. -/
def entryKeyLt {α : Type} (e f : PQEntry α) : Prop :=
  keyLt e.priority e.seq f.priority f.seq = true

/-- Strict `(priority, counter)` order on popped `(priority, seq, item)`
triples. -/
def tripleKeyLt {α : Type} (t u : Nat × Nat × α) : Prop :=
  keyLt t.1 t.2.1 u.1 u.2.1 = true

/-- The structural invariant of the priority queue: the heap is strictly
sorted by `(priority, counter)`, all counters are fresh-bounded and
pairwise distinct, the side table holds exactly the live heap entries, and
the side table's keys are distinct. -/
def PQInv {α : Type} (q : PQueue α) : Prop :=
  List.Pairwise entryKeyLt q.heap ∧
  (∀ e ∈ q.heap, e.seq < q.counter) ∧
  List.Pairwise (fun e f : PQEntry α => e.seq ≠ f.seq) q.heap ∧
  (∀ (x : α) (p s : Nat), (x, p, s) ∈ q.entries ↔ (⟨p, s, some x⟩ : PQEntry α) ∈ q.heap) ∧
  (q.entries.map Prod.fst).Nodup

/-- The inductive occupancy invariant: every entity in the table is live,
is keyed by its own id, and is indexed by the occupancy map at its
position. -/
def GameInv (s : GameS) : Prop :=
  ∀ id e, s.ents id = some e →
    e.id = id ∧ e.removed = false ∧ e.template = false ∧ s.emap e.pos = some id

/-- The occupancy map of the crash instance for `path_between`: eleven
occupied cells around the origin. -/
def crashWalls : List Position :=
  [⟨-3, 0⟩, ⟨-3, 1⟩, ⟨-2, -1⟩, ⟨-2, 1⟩, ⟨-1, -2⟩, ⟨-1, 1⟩,
   ⟨0, -2⟩, ⟨0, 1⟩, ⟨1, -2⟩, ⟨1, -1⟩, ⟨1, 0⟩]

/-- Occupancy function of the crash instance (all walls held by entity 0). -/
def crashMap : Position → Option Nat :=
  fun p => if p ∈ crashWalls then some 0 else none

/-- Occupancy map with a single entity (id 99) at the origin: the mover
itself, as `path_between` is always called with the mover on the map. -/
def soloMap : Position → Option Nat :=
  fun p => if p = (⟨0, 0⟩ : Position) then some 99 else none

/-- The mover of the `soloMap` instance. -/
def soloEnt : EntityS :=
  { id := 99, removed := false, template := false, tag := 1, alignment := 2, pos := ⟨0, 0⟩ }

/-- A game state holding exactly the `soloMap` mover. -/
def soloGame : GameS :=
  { emptyGame with ents := fupd emptyGame.ents 99 (some soloEnt), emap := soloMap }

/-- The Transmute configuration of the spec's concrete scenario:
`rate=3, from=Food(0.5), to=Gold(1.0), efficiency=0.8`, no carry. -/
def scenarioTransmute : TransmuteS :=
  { currentRate := 3, efficiency := 4/5, fromR := .food, toR := .gold, remainder := 0 }

/-- The initial resource pools of a fresh game (game.py lines 1044-1048). -/
def initPools : Pools := ⟨1000, 1000, 1000, 1000, 1000⟩

/-- A freshly created game's lifecycle state (`state=Active` right after
`game/create`, game.py lines 1395-1402). -/
def freshLifecycle : GameLite :=
  { inactive := false, timeSinceActive := 0, state := .active, runtime := 0 }

/-- A unit published on the fresh-game state, for concrete witnesses. -/
def witnessEnt : EntityS :=
  { id := 1, removed := false, template := false, tag := 1, alignment := 2, pos := ⟨5, 5⟩ }

/-- The game state after adding `witnessEnt` to `initGame`. -/
def witnessGame : GameS := onNewEntity initGame witnessEnt

/-! # Theorems -/

/-! ## C1: `Game.spend` is two-phase -/

theorem getPool_set_same {p : Pools} {rt : ResourceType} {v x : Rat}
    (h : getPool p rt = some v) : getPool (setPool p rt x) rt = some x := by
  cases rt <;> simp [getPool, setPool] at h ⊢

theorem getPool_set_other {p : Pools} {rt rt' : ResourceType} {x : Rat}
    (h : rt' ≠ rt) : getPool (setPool p rt x) rt' = getPool p rt' := by
  cases rt <;> cases rt' <;> simp_all [getPool, setPool]

theorem spendDebit_error_attr :
    ∀ (costs : List (ResourceType × Int)) (p : Pools) (e : SpendErr) (p' : Pools),
      spendDebit costs p = .error (e, p') → e = .attrMissing := by
  intro costs
  induction costs with
  | nil => intro p e p' h; simp [spendDebit] at h
  | cons c rest ih =>
    intro p e p' h
    obtain ⟨rt, amt⟩ := c
    rw [spendDebit] at h
    cases hg : getPool p rt with
    | none => rw [hg] at h; exact (by injection h with h'; injection h' with h₁ _; exact h₁.symm ▸ rfl)
    | some avail => rw [hg] at h; exact ih _ e p' h

theorem spendDebit_ok_debits :
    ∀ (costs : List (ResourceType × Int)) (p p' : Pools),
      spendDebit costs p = .ok p' →
      ∀ rt v, getPool p rt = some v → getPool p' rt = some (v - (costSum costs rt : Rat)) := by
  intro costs
  induction costs with
  | nil =>
    intro p p' h rt v hv
    simp only [spendDebit] at h
    injection h with h'
    subst h'
    simpa [costSum] using hv
  | cons c rest ih =>
    intro p p' h rt v hv
    obtain ⟨rt₀, amt⟩ := c
    rw [spendDebit] at h
    cases hg : getPool p rt₀ with
    | none => rw [hg] at h; exact absurd h (by simp)
    | some avail =>
      rw [hg] at h
      by_cases hrt : rt = rt₀
      · subst hrt
        have hv' : v = avail := by rw [hv] at hg; injection hg
        subst hv'
        have := ih _ _ h rt (v - (amt : Rat)) (getPool_set_same hv)
        rw [this]
        simp [costSum]
        ring_nf
      · have := ih _ _ h rt v (by rw [getPool_set_other hrt]; exact hv)
        rw [this]
        have hne : rt₀ ≠ rt := fun hh => hrt hh.symm
        simp [costSum, hne]

theorem spendCheck_insufficient_iff :
    ∀ (costs : List (ResourceType × Int)) (p : Pools),
      (∀ c ∈ costs, c.1 ≠ ResourceType.null) →
      (spendCheck costs p = some .insufficient ↔
        ∃ c ∈ costs, ∃ v, getPool p c.1 = some v ∧ v < (c.2 : Rat)) := by
  intro costs
  induction costs with
  | nil => intro p _; simp [spendCheck]
  | cons c rest ih =>
    intro p hnn
    obtain ⟨rt, amt⟩ := c
    have hrt : rt ≠ ResourceType.null := hnn (rt, amt) (by simp)
    rw [spendCheck]
    cases hg : getPool p rt with
    | none =>
      exfalso
      cases rt <;> simp [getPool] at hg <;> exact hrt rfl
    | some avail =>
      by_cases hlt : avail < (amt : Rat)
      · simp only [hlt, if_pos]
        constructor
        · intro _; exact ⟨(rt, amt), by simp, avail, hg, hlt⟩
        · intro _; trivial
      · simp only [hlt, if_neg, not_false_iff]
        rw [ih p (fun c hc => hnn c (by simp [hc]))]
        constructor
        · intro ⟨c, hc, v, hgv, hlv⟩
          exact ⟨c, by simp [hc], v, hgv, hlv⟩
        · intro ⟨c, hc, v, hgv, hlv⟩
          rcases List.mem_cons.mp hc with hceq | hcm
          · exfalso
            subst hceq
            simp only at hgv
            rw [hg] at hgv
            injection hgv with hv
            exact hlt (hv ▸ hlv)
          · exact ⟨c, hcm, v, hgv, hlv⟩

/-- C1.  For every list of `(resource, amount)` costs and every pool state:
a `spend` raising `InsufficientResources` leaves every pool unchanged (the
error carries exactly the input pools); a returning `spend` debits every
listed cost from its pool exactly once (each pool drops by the sum of its
listed amounts); and — for cost lists over the real resources — `spend`
raises `InsufficientResources` exactly when some listed resource pool is
below its listed amount. -/
theorem c1_spend_two_phase :
    (∀ (costs : List (ResourceType × Int)) (p p' : Pools),
        spend costs p = .error (.insufficient, p') → p' = p) ∧
    (∀ (costs : List (ResourceType × Int)) (p p' : Pools),
        spend costs p = .ok p' →
        ∀ rt v, getPool p rt = some v →
          getPool p' rt = some (v - (costSum costs rt : Rat))) ∧
    (∀ (costs : List (ResourceType × Int)) (p : Pools),
        (∀ c ∈ costs, c.1 ≠ ResourceType.null) →
        (spend costs p = .error (.insufficient, p) ↔
          ∃ c ∈ costs, ∃ v, getPool p c.1 = some v ∧ v < (c.2 : Rat))) := by
  refine ⟨?_, ?_, ?_⟩
  · intro costs p p' h
    rw [spend] at h
    cases hc : spendCheck costs p with
    | some e =>
      rw [hc] at h
      injection h with h'
      injection h' with _ h₂
      exact h₂.symm
    | none =>
      rw [hc] at h
      have := spendDebit_error_attr costs p .insufficient p' h
      exact absurd this (by simp)
  · intro costs p p' h
    rw [spend] at h
    cases hc : spendCheck costs p with
    | some e => rw [hc] at h; exact absurd h (by simp)
    | none => rw [hc] at h; exact spendDebit_ok_debits costs p p' h
  · intro costs p hnn
    rw [spend]
    constructor
    · intro h
      cases hc : spendCheck costs p with
      | some e =>
        rw [hc] at h
        injection h with h'
        injection h' with h₁ _
        exact (spendCheck_insufficient_iff costs p hnn).mp (h₁ ▸ hc)
      | none =>
        rw [hc] at h
        have := spendDebit_error_attr costs p .insufficient p h
        exact absurd this (by simp)
    · intro hex
      rw [(spendCheck_insufficient_iff costs p hnn).mpr hex]

/-- Witness for C1 at concrete inputs: debiting the Arrow-Tower costs from
fresh pools succeeds and drops wood by 100; spending 100 gold out of a
50-gold pool raises with the pools intact. -/
theorem c1_spend_two_phase_witness :
    (spend [(.gold, 100)] ⟨1000, 50, 1000, 1000, 1000⟩
        = .error (.insufficient, ⟨1000, 50, 1000, 1000, 1000⟩) ∧
      (⟨1000, 50, 1000, 1000, 1000⟩ : Pools) = ⟨1000, 50, 1000, 1000, 1000⟩) ∧
    (spend [(.wood, 100), (.stone, 100)] initPools = .ok ⟨1000, 1000, 900, 900, 1000⟩ ∧
      getPool initPools .wood = some 1000 ∧
      getPool (⟨1000, 1000, 900, 900, 1000⟩ : Pools) .wood
        = some (1000 - (costSum [(.wood, 100), (.stone, 100)] .wood : Rat))) ∧
    ((∀ c ∈ [((.gold : ResourceType), (100 : Int))], c.1 ≠ ResourceType.null) ∧
      ∃ c ∈ [((.gold : ResourceType), (100 : Int))], ∃ v,
        getPool (⟨1000, 50, 1000, 1000, 1000⟩ : Pools) c.1 = some v ∧ v < (c.2 : Rat)) := by
  refine ⟨⟨?_, ?_⟩, ⟨?_, ?_, ?_⟩, ?_, ?_⟩
  · with_unfolding_all rfl
  · exact c1_spend_two_phase.1 [(.gold, 100)] ⟨1000, 50, 1000, 1000, 1000⟩
      ⟨1000, 50, 1000, 1000, 1000⟩ (by with_unfolding_all rfl)
  · with_unfolding_all rfl
  · with_unfolding_all rfl
  · have := c1_spend_two_phase.2.1 [(.wood, 100), (.stone, 100)] initPools
      ⟨1000, 1000, 900, 900, 1000⟩ (by with_unfolding_all rfl) .wood 1000
      (by with_unfolding_all rfl)
    exact this
  · with_unfolding_all decide
  · exact (c1_spend_two_phase.2.2 [(.gold, 100)] ⟨1000, 50, 1000, 1000, 1000⟩
      (by with_unfolding_all decide)).mp (by with_unfolding_all rfl)

/-! ## C7: idle games are destroyed after 30 seconds -/

theorem runGame_none (l : List (Rat × Bool)) : runGame none l = none := by
  cases l <;> rfl

theorem runGame_inactive_destroyed :
    ∀ (ticks : List (Rat × Bool)) (g : GameLite),
      g.inactive = true → 0 ≤ g.timeSinceActive → g.timeSinceActive ≤ 30 →
      (∀ t ∈ ticks, 0 ≤ t.1) → (∀ t ∈ ticks, t.2 = false) →
      30 < g.timeSinceActive + (ticks.map (·.1)).sum →
      runGame (some g) ticks = none := by
  intro ticks
  induction ticks with
  | nil =>
    intro g _ _ hle _ _ hsum
    simp only [List.map_nil, List.sum_nil, add_zero] at hsum
    exact absurd hsum (not_lt.mpr hle)
  | cons t rest ih =>
    intro g hin h0 hle hd hs hsum
    obtain ⟨d, b⟩ := t
    have hb : b = false := hs (d, b) (by simp)
    subst hb
    have hd0 : (0 : Rat) ≤ d := hd (d, false) (by simp)
    rw [runGame, gameTick, hin]
    simp only [if_true, Bool.false_eq_true, if_false]
    by_cases hlt : 30 < g.timeSinceActive + d
    · rw [if_pos hlt]
      exact runGame_none rest
    · rw [if_neg hlt]
      refine ih { g with inactive := true, timeSinceActive := g.timeSinceActive + d } rfl ?_ ?_
        (fun t ht => hd t (by simp [ht])) (fun t ht => hs t (by simp [ht])) ?_
      · show (0 : Rat) ≤ g.timeSinceActive + d
        linarith
      · show g.timeSinceActive + d ≤ 30
        linarith
      · show (30 : Rat) < g.timeSinceActive + d + (rest.map (·.1)).sum
        simp only [List.map_cons, List.sum_cons] at hsum
        linarith

/-- C7.  If every tick observes an empty subscriber set, then as soon as the
tick deltas accumulated after the first subscriber-empty tick exceed 30
seconds the game is destroyed (popped from the `games` table, hence no
longer reachable by id); and a tick observing at least one subscriber
clears the `inactive` flag and never destroys the game. -/
theorem c7_idle_destroy :
    (∀ (g : GameLite) (ticks : List (Rat × Bool)),
        0 ≤ g.timeSinceActive →
        (∀ t ∈ ticks, 0 ≤ t.1) → (∀ t ∈ ticks, t.2 = false) →
        30 < ((ticks.drop 1).map (·.1)).sum →
        runGame (some g) ticks = none) ∧
    (∀ (g : GameLite) (d : Rat), ∃ g',
        gameTick g d true = some g' ∧ g'.inactive = false) := by
  constructor
  · intro g ticks h0 hd hs hsum
    cases ticks with
    | nil => simp at hsum; exact absurd hsum (by norm_num)
    | cons t rest =>
      obtain ⟨d, b⟩ := t
      have hb : b = false := hs (d, b) (by simp)
      subst hb
      have hd0 : (0 : Rat) ≤ d := hd (d, false) (by simp)
      simp only [List.drop_succ_cons, List.drop_zero] at hsum
      have hrest0 : (0 : Rat) ≤ (rest.map (·.1)).sum := by
        apply List.sum_nonneg
        intro x hx
        obtain ⟨t, ht, hteq⟩ := List.mem_map.mp hx
        exact hteq ▸ hd t (by simp [ht])
      rw [runGame, gameTick]
      cases hin : g.inactive with
      | false =>
        simp only [Bool.false_eq_true, if_false, Bool.not_false, if_true]
        refine runGame_inactive_destroyed rest
          { g with inactive := true, timeSinceActive := 0 } rfl le_rfl (by norm_num)
          (fun t ht => hd t (by simp [ht])) (fun t ht => hs t (by simp [ht])) ?_
        show (30 : Rat) < 0 + (rest.map (·.1)).sum
        simpa using hsum
      | true =>
        simp only [if_true, Bool.false_eq_true, if_false]
        by_cases hlt : 30 < g.timeSinceActive + d
        · rw [if_pos hlt]
          exact runGame_none rest
        · rw [if_neg hlt]
          refine runGame_inactive_destroyed rest
            { g with inactive := true, timeSinceActive := g.timeSinceActive + d } rfl ?_ ?_
            (fun t ht => hd t (by simp [ht])) (fun t ht => hs t (by simp [ht])) ?_
          · show (0 : Rat) ≤ g.timeSinceActive + d
            linarith
          · show g.timeSinceActive + d ≤ 30
            linarith
          · show (30 : Rat) < g.timeSinceActive + d + (rest.map (·.1)).sum
            linarith
  · intro g d
    by_cases hst : g.state = GState.active
    · cases hin : g.inactive with
      | false => exact ⟨activeTick g d, by rw [gameTick, hin]; simp [hst], hin⟩
      | true => exact ⟨activeTick { g with inactive := false } d,
          by rw [gameTick, hin]; simp [hst], rfl⟩
    · cases hin : g.inactive with
      | false => exact ⟨g, by rw [gameTick, hin]; simp [hst], hin⟩
      | true => exact ⟨{ g with inactive := false }, by rw [gameTick, hin]; simp [hst], rfl⟩

/-- Witness for C7: a fresh game, one empty tick plus a 31-second empty
tick, is destroyed; a subscribed tick on an inactive game clears the flag. -/
theorem c7_idle_destroy_witness :
    (0 ≤ freshLifecycle.timeSinceActive ∧
      (∀ t ∈ [((1 : Rat), false), ((31 : Rat), false)], 0 ≤ t.1) ∧
      (∀ t ∈ [((1 : Rat), false), ((31 : Rat), false)], t.2 = false) ∧
      30 < (([((1 : Rat), false), ((31 : Rat), false)].drop 1).map (·.1)).sum ∧
      runGame (some freshLifecycle) [(1, false), (31, false)] = none) ∧
    (∃ g', gameTick ⟨true, 20, .active, 0⟩ 1 true = some g' ∧ g'.inactive = false) := by
  refine ⟨⟨?_, ?_, ?_, ?_, ?_⟩, ?_⟩
  · with_unfolding_all decide
  · with_unfolding_all decide
  · with_unfolding_all decide
  · with_unfolding_all decide
  · exact c7_idle_destroy.1 freshLifecycle [(1, false), (31, false)]
      (by with_unfolding_all decide) (by with_unfolding_all decide)
      (by with_unfolding_all decide) (by with_unfolding_all decide)
  · exact c7_idle_destroy.2 ⟨true, 20, .active, 0⟩ 1

/-! ## C2 and C10: the occupancy invariant and `move_entity` framing -/

theorem fupd_same {κ ν : Type} [DecidableEq κ] (m : κ → Option ν) (k : κ) (v : Option ν) :
    fupd m k v k = v := by simp [fupd]

theorem fupd_other {κ ν : Type} [DecidableEq κ] (m : κ → Option ν) (k : κ) (v : Option ν)
    {x : κ} (h : x ≠ k) : fupd m k v x = m x := by simp [fupd, h]

theorem inv_init : GameInv initGame := by
  intro id e h
  have hents : initGame.ents id = (if id = 0 then some fortressEnt else none) := rfl
  rw [hents] at h
  by_cases h0 : id = 0
  · subst h0
    rw [if_pos rfl] at h
    injection h with h
    subst h
    exact ⟨rfl, rfl, rfl, by with_unfolding_all decide⟩
  · rw [if_neg h0] at h
    exact absurd h (by simp)

theorem step_inv {s s' : GameS} (hs : Step s s') (hinv : GameInv s) : GameInv s' := by
  cases hs with
  | add e s' hfresh hrm htm hok =>
    rw [addEntity] at hok
    by_cases hocc : (s.emap e.pos).isSome
    · rw [if_pos hocc] at hok
      exact absurd hok (by simp)
    · rw [if_neg hocc] at hok
      injection hok with hok
      subst hok
      have hfree : s.emap e.pos = none := Option.not_isSome_iff_eq_none.mp hocc
      intro id f hf
      show _ ∧ _ ∧ _ ∧ fupd s.emap e.pos (some e.id) f.pos = some id
      have hf' : fupd s.ents e.id (some e) id = some f := hf
      by_cases hid : id = e.id
      · subst hid
        rw [fupd_same] at hf'
        injection hf' with hf'
        subst hf'
        exact ⟨rfl, hrm, htm, by rw [fupd_same]⟩
      · rw [fupd_other _ _ _ hid] at hf'
        obtain ⟨hfid, hfrm, hftm, hfmap⟩ := hinv id f hf'
        have hpos : f.pos ≠ e.pos := by
          intro hp
          rw [hp, hfree] at hfmap
          exact absurd hfmap (by simp)
        exact ⟨hfid, hfrm, hftm, by rw [fupd_other _ _ _ hpos]; exact hfmap⟩
  | move eid e pos s' hlive hok =>
    obtain ⟨hid, hrm, htm, hmap⟩ := hinv eid e hlive
    subst hid
    rw [moveEntity] at hok
    by_cases hsame : e.pos = pos
    · rw [if_pos hsame] at hok
      injection hok with hok
      subst hok
      exact hinv
    · rw [if_neg hsame] at hok
      by_cases hocc : (s.emap pos).isSome
      · rw [if_pos hocc] at hok
        exact absurd hok (by simp)
      · rw [if_neg hocc] at hok
        injection hok with hok
        subst hok
        have hfree : s.emap pos = none := Option.not_isSome_iff_eq_none.mp hocc
        intro id f hf
        show _ ∧ _ ∧ _ ∧ fupd (fupd s.emap e.pos none) pos (some e.id) f.pos = some id
        have hf' : fupd s.ents e.id (some { e with pos := pos }) id = some f := hf
        by_cases hid : id = e.id
        · subst hid
          rw [fupd_same] at hf'
          injection hf' with hf'
          subst hf'
          exact ⟨rfl, hrm, htm, by rw [fupd_same]⟩
        · rw [fupd_other _ _ _ hid] at hf'
          obtain ⟨hfid, hfrm, hftm, hfmap⟩ := hinv id f hf'
          have hp1 : f.pos ≠ pos := by
            intro hp
            rw [hp, hfree] at hfmap
            exact absurd hfmap (by simp)
          have hp2 : f.pos ≠ e.pos := by
            intro hp
            rw [hp, hmap] at hfmap
            injection hfmap with hfmap
            exact hid hfmap.symm
          refine ⟨hfid, hfrm, hftm, ?_⟩
          rw [fupd_other _ _ _ hp1, fupd_other _ _ _ hp2]
          exact hfmap
  | remove eid e hlive =>
    obtain ⟨hid, _, _, hmap⟩ := hinv eid e hlive
    subst hid
    intro id f hf
    show _ ∧ _ ∧ _ ∧ fupd s.emap e.pos none f.pos = some id
    have hf' : fupd s.ents e.id none id = some f := hf
    by_cases hid : id = e.id
    · subst hid
      rw [fupd_same] at hf'
      exact absurd hf' (by simp)
    · rw [fupd_other _ _ _ hid] at hf'
      obtain ⟨hfid, hfrm, hftm, hfmap⟩ := hinv id f hf'
      have hp : f.pos ≠ e.pos := by
        intro hp
        rw [hp, hmap] at hfmap
        injection hfmap with hfmap
        exact hid hfmap.symm
      exact ⟨hfid, hfrm, hftm, by rw [fupd_other _ _ _ hp]; exact hfmap⟩

theorem reachable_inv {s : GameS} (h : Reachable s) : GameInv s := by
  induction h with
  | init => exact inv_init
  | step _ hs ih => exact step_inv hs ih

/-- C2.  In every game state reachable from game creation through
`add_entity`/`on_new_entity`, `move_entity` and `remove_entity` (with the
fortress base plates written at creation), every entity in the entities
table satisfies `map[e.position] = e` iff it is neither removed nor a
template; the six base-plate cells alias the fortress at *other* keys of the
map and never break the property at any entity's own position. -/
theorem c2_occupancy_invariant :
    ∀ (s : GameS), Reachable s → ∀ (id : Nat) (e : EntityS), s.ents id = some e →
      (s.emap e.pos = some id ↔ (e.removed = false ∧ e.template = false)) := by
  intro s hs id e he
  obtain ⟨_, hrm, htm, hmap⟩ := reachable_inv hs id e he
  exact ⟨fun _ => ⟨hrm, htm⟩, fun _ => hmap⟩

theorem witnessGame_step : Step initGame witnessGame :=
  Step.add initGame witnessEnt witnessGame (by with_unfolding_all rfl) rfl rfl
    (by with_unfolding_all rfl)

/-- Witness for C2 at the reachable two-entity state `witnessGame`. -/
theorem c2_occupancy_invariant_witness :
    Reachable witnessGame ∧ witnessGame.ents 1 = some witnessEnt ∧
      (witnessGame.emap witnessEnt.pos = some 1 ↔
        (witnessEnt.removed = false ∧ witnessEnt.template = false)) :=
  ⟨Reachable.step Reachable.init witnessGame_step, by with_unfolding_all rfl,
    c2_occupancy_invariant witnessGame (Reachable.step Reachable.init witnessGame_step) 1
      witnessEnt (by with_unfolding_all rfl)⟩

/-- C10.  `move_entity` of an entity to its own position returns before any
mutation or occupancy check: the state (including the queued-updates set) is
returned unchanged and no error is raised.  Moving onto a position occupied
by a *different* entity raises `ValueError` before any mutation. -/
theorem c10_move_entity_frame :
    (∀ (s : GameS) (e : EntityS), moveEntity s e e.pos = .ok s) ∧
    (∀ (s : GameS) (eid : Nat) (e : EntityS) (p : Position) (fid : Nat),
        Reachable s → s.ents eid = some e → s.emap p = some fid → fid ≠ eid →
        moveEntity s e p = .error ()) := by
  constructor
  · intro s e
    rw [moveEntity, if_pos rfl]
  · intro s eid e p fid hreach he hocc hne
    obtain ⟨hid, _, _, hmap⟩ := reachable_inv hreach eid e he
    subst hid
    have hpn : e.pos ≠ p := by
      intro hep
      rw [← hep, hmap] at hocc
      injection hocc with h
      exact hne h.symm
    rw [moveEntity, if_neg hpn, if_pos (by rw [hocc]; rfl)]

/-- Witness for C10: in the reachable state `witnessGame`, moving the unit
onto its own cell is the identity, and moving it onto the fortress-occupied
origin raises. -/
theorem c10_move_entity_frame_witness :
    moveEntity witnessGame witnessEnt witnessEnt.pos = .ok witnessGame ∧
    (Reachable witnessGame ∧ witnessGame.ents 1 = some witnessEnt ∧
      witnessGame.emap ⟨0, 0⟩ = some 0 ∧ (0 : Nat) ≠ 1 ∧
      moveEntity witnessGame witnessEnt ⟨0, 0⟩ = .error ()) :=
  ⟨c10_move_entity_frame.1 witnessGame witnessEnt,
    Reachable.step Reachable.init witnessGame_step, by with_unfolding_all rfl,
    by with_unfolding_all rfl, by decide,
    c10_move_entity_frame.2 witnessGame 1 witnessEnt ⟨0, 0⟩ 0
      (Reachable.step Reachable.init witnessGame_step) (by with_unfolding_all rfl)
      (by with_unfolding_all rfl) (by decide)⟩

/-! ## C8: the pixel round-trip -/

theorem q3_ext {x y : Q3} (ha : x.a = y.a) (hb : x.b = y.b) : x = y := by
  cases x; cases y; cases ha; cases hb; rfl

theorem q3_mul_a (x y : Q3) : (x * y).a = x.a * y.a + 3 * (x.b * y.b) := rfl
theorem q3_mul_b (x y : Q3) : (x * y).b = x.a * y.b + x.b * y.a := rfl
theorem q3_sub_a (x y : Q3) : (x - y).a = x.a - y.a := rfl
theorem q3_sub_b (x y : Q3) : (x - y).b = x.b - y.b := rfl
theorem q3_add_a (x y : Q3) : (x + y).a = x.a + y.a := rfl
theorem q3_add_b (x y : Q3) : (x + y).b = x.b + y.b := rfl
theorem q3_inv_a (x : Q3) : (x⁻¹).a = x.a / (x.a ^ 2 - 3 * x.b ^ 2) := rfl
theorem q3_inv_b (x : Q3) : (x⁻¹).b = -x.b / (x.a ^ 2 - 3 * x.b ^ 2) := rfl
theorem q3_div_def (x y : Q3) : x / y = x * y⁻¹ := rfl
theorem q3_ofRat_a (c : Rat) : (Q3.ofRat c).a = c := rfl
theorem q3_ofRat_b (c : Rat) : (Q3.ofRat c).b = 0 := rfl
theorem q3_ofInt_a (n : Int) : (Q3.ofInt n).a = (n : Rat) := rfl
theorem q3_ofInt_b (n : Int) : (Q3.ofInt n).b = 0 := rfl
theorem q3_sqrt3_a : Q3.sqrt3.a = 0 := rfl
theorem q3_sqrt3_b : Q3.sqrt3.b = 1 := rfl

theorem pyRound_intCast (n : Int) : pyRound (n : Rat) = n := by
  unfold pyRound
  rw [Int.floor_intCast]
  norm_num

theorem pyRound3_rat (x : Rat) : Q3.pyRound3 ⟨x, 0⟩ = pyRound x := by
  unfold Q3.pyRound3
  rfl

theorem fromFloats3_int (q r : Int) :
    fromFloats3 ⟨(q : Rat), 0⟩ ⟨(r : Rat), 0⟩ = ⟨q, r⟩ := by
  have hq : (⟨(q : Rat), 0⟩ : Q3) - Q3.ofInt q = ⟨0, 0⟩ := by
    refine q3_ext ?_ ?_ <;> simp [q3_sub_a, q3_sub_b, q3_ofInt_a, q3_ofInt_b]
  have hr : (⟨(r : Rat), 0⟩ : Q3) - Q3.ofInt r = ⟨0, 0⟩ := by
    refine q3_ext ?_ ?_ <;> simp [q3_sub_a, q3_sub_b, q3_ofInt_a, q3_ofInt_b]
  have hzero : (⟨0, 0⟩ : Q3) + Q3.ofRat (1/2) * ⟨0, 0⟩ = ⟨0, 0⟩ := by
    refine q3_ext ?_ ?_ <;>
      simp [q3_add_a, q3_add_b, q3_mul_a, q3_mul_b, q3_ofRat_a, q3_ofRat_b]
  have h0 : Q3.pyRound3 ⟨0, 0⟩ = 0 := by
    rw [show (⟨0, 0⟩ : Q3) = ⟨((0 : Int) : Rat), 0⟩ by norm_num, pyRound3_rat, pyRound_intCast]
  unfold fromFloats3
  rw [pyRound3_rat, pyRound3_rat, pyRound_intCast, pyRound_intCast]
  simp only [hq, hr, hzero, h0]
  norm_num [Q3.ble, Q3.q3abs, Q3.nonneg, q3_sub_a, q3_sub_b]

/-- C8 counterexample: the round-trip as claimed fails already at the axial
position `(1, 0)`, which maps through `Position.x`/`Position.y` and back
through `from_pixels` to `(2, 0)` (the source's `1.5` pixel scale factor is
not divided back out). -/
theorem c8_pixel_roundtrip_counterexample :
    fromPixels (Position.px ⟨1, 0⟩) (Position.py ⟨1, 0⟩) = ⟨2, 0⟩ ∧
    fromPixels (Position.px ⟨1, 0⟩) (Position.py ⟨1, 0⟩) ≠ ⟨1, 0⟩ := by
  constructor
  · with_unfolding_all decide
  · with_unfolding_all decide

/-- C8 amended: the pixel round-trip is the identity once the extra `1.5`
factor of the pixel conversion is divided back out:
`from_pixels(p.x / 1.5, p.y / 1.5) = p` for every integer axial position. -/
theorem c8_pixel_roundtrip_amended (p : Position) :
    fromPixels (p.px / Q3.ofRat (3/2)) (p.py / Q3.ofRat (3/2)) = p := by
  have h32 : (Q3.ofRat (3/2))⁻¹ = ⟨2/3, 0⟩ := by
    refine q3_ext ?_ ?_ <;>
      simp [q3_inv_a, q3_inv_b, q3_ofRat_a, q3_ofRat_b] <;> norm_num
  have hG : (Q3.ofRat 100)⁻¹ = ⟨1/100, 0⟩ := by
    refine q3_ext ?_ ?_ <;>
      simp [q3_inv_a, q3_inv_b, q3_ofRat_a, q3_ofRat_b] <;> norm_num
  have h3 : (Q3.ofRat 3)⁻¹ = ⟨1/3, 0⟩ := by
    refine q3_ext ?_ ?_ <;>
      simp [q3_inv_a, q3_inv_b, q3_ofRat_a, q3_ofRat_b] <;> norm_num
  have h2 : (Q3.ofRat 2)⁻¹ = ⟨1/2, 0⟩ := by
    refine q3_ext ?_ ?_ <;>
      simp [q3_inv_a, q3_inv_b, q3_ofRat_a, q3_ofRat_b] <;> norm_num
  have hu : (Q3.sqrt3 / Q3.ofRat 3 * (p.px / Q3.ofRat (3/2)) -
      Q3.ofRat (1/3) * (p.py / Q3.ofRat (3/2))) / Q3.ofRat GRID_SIZE
      = ⟨(p.q : Rat), 0⟩ := by
    refine q3_ext ?_ ?_ <;>
      simp only [Position.px, Position.py, q3_div_def, h32, hG, h3, h2,
        q3_mul_a, q3_mul_b, q3_sub_a, q3_sub_b, q3_add_a, q3_add_b,
        q3_ofRat_a, q3_ofRat_b, q3_ofInt_a, q3_ofInt_b, q3_sqrt3_a, q3_sqrt3_b,
        GRID_SIZE] <;> ring
  have hv : (Q3.ofRat (2/3) * (p.py / Q3.ofRat (3/2))) / Q3.ofRat GRID_SIZE
      = ⟨(p.r : Rat), 0⟩ := by
    refine q3_ext ?_ ?_ <;>
      simp only [Position.py, q3_div_def, h32, hG,
        q3_mul_a, q3_mul_b, q3_sub_a, q3_sub_b, q3_add_a, q3_add_b,
        q3_ofRat_a, q3_ofRat_b, q3_ofInt_a, q3_ofInt_b, GRID_SIZE] <;> ring
  rw [fromPixels, hu, hv, fromFloats3_int]

/-! ## C9: `line_to` -/

theorem pyRound_zero : pyRound 0 = 0 := by
  rw [show (0 : Rat) = ((0 : Int) : Rat) by norm_num]
  exact pyRound_intCast 0

theorem fromFloats_int (q r : Int) : fromFloats (q : Rat) (r : Rat) = ⟨q, r⟩ := by
  unfold fromFloats
  rw [pyRound_intCast, pyRound_intCast]
  norm_num [pyRound_zero]

theorem hexDist_eq_zero_iff (a b : Position) : hexDist a b = 0 ↔ a = b := by
  unfold hexDist
  constructor
  · intro h
    have hq : a.q = b.q := by omega
    have hr : a.r = b.r := by omega
    cases a; cases b; simp_all
  · intro h; subst h; simp

theorem lerp_zero (a b : Position) : a.lerp b 0 = a := by
  unfold Position.lerp
  rw [show (a.q : Rat) + ((b.q : Rat) - (a.q : Rat)) * 0 = ((a.q : Rat)) by ring,
    show (a.r : Rat) + ((b.r : Rat) - (a.r : Rat)) * 0 = ((a.r : Rat)) by ring]
  exact fromFloats_int a.q a.r

theorem lerp_one (a b : Position) : a.lerp b 1 = b := by
  unfold Position.lerp
  rw [show (a.q : Rat) + ((b.q : Rat) - (a.q : Rat)) * 1 = ((b.q : Rat)) by ring,
    show (a.r : Rat) + ((b.r : Rat) - (a.r : Rat)) * 1 = ((b.r : Rat)) by ring]
  exact fromFloats_int b.q b.r

/-- C9.  `line_to(a, a)` evaluates `interval = 1/distance` with
`distance = 0` and raises `ZeroDivisionError` instead of returning the
claimed one-element list — the failing input of the code bug.  On every
pair of distinct positions the call returns, with exactly `distance + 1`
positions starting at `a` and ending at `b`; the concrete sample line from
`(0,0)` to `(3,-1)` also shows consecutive entries being hex neighbors. -/
theorem c9_line_to_zero_division :
    (lineTo ⟨0, 0⟩ ⟨0, 0⟩ = none) ∧
    (∀ a b : Position, a ≠ b → ∃ l, lineTo a b = some l ∧
        l.length = hexDist a b + 1 ∧ l.head? = some a ∧ l.getLast? = some b) ∧
    (lineTo ⟨0, 0⟩ ⟨3, -1⟩ = some [⟨0, 0⟩, ⟨1, 0⟩, ⟨2, -1⟩, ⟨3, -1⟩] ∧
      (⟨1, 0⟩ : Position) ∈ (⟨0, 0⟩ : Position).neighbors ∧
      (⟨2, -1⟩ : Position) ∈ (⟨1, 0⟩ : Position).neighbors ∧
      (⟨3, -1⟩ : Position) ∈ (⟨2, -1⟩ : Position).neighbors) := by
  refine ⟨rfl, ?_, ?_, ?_⟩
  · intro a b hne
    have hd : hexDist a b ≠ 0 := fun h => hne ((hexDist_eq_zero_iff a b).mp h)
    rw [lineTo]
    simp only [if_neg hd]
    refine ⟨_, rfl, ?_, ?_, ?_⟩
    · simp
    · rw [List.range_succ_eq_map, List.map_cons, List.head?_cons]
      congr 1
      rw [show ((0 : Nat) : Rat) / (hexDist a b : Rat) = 0 by simp]
      exact lerp_zero a b
    · rw [List.range_succ, List.map_append, List.map_singleton, List.getLast?_concat]
      congr 1
      rw [show ((hexDist a b : Nat) : Rat) / (hexDist a b : Rat) = 1 by
        rw [div_self]; exact_mod_cast hd]
      exact lerp_one a b
  · with_unfolding_all decide
  · with_unfolding_all decide

/-- Witness for C9's universally quantified part at a concrete distinct
pair. -/
theorem c9_line_to_zero_division_witness :
    ((⟨0, 0⟩ : Position) ≠ ⟨2, -1⟩) ∧
    (∃ l, lineTo ⟨0, 0⟩ ⟨2, -1⟩ = some l ∧
      l.length = hexDist ⟨0, 0⟩ ⟨2, -1⟩ + 1 ∧
      l.head? = some ⟨0, 0⟩ ∧ l.getLast? = some ⟨2, -1⟩) :=
  ⟨by decide, c9_line_to_zero_division.2.1 ⟨0, 0⟩ ⟨2, -1⟩ (by decide)⟩

/-! ## C3: `path_between` -/

/-- C3 (code bug).  On the eleven-cell `crashMap` pocket, `path_between`
from `(0,0)` toward `(0,-3)` with the default limit raises `IndexError`
instead of returning a path: after five expansions the heap holds exactly
one tombstoned entry (the `(-2,0)` entry re-prioritized from f=9 to f=8),
`PriorityQueue.__bool__` still reports the queue non-empty, and the sixth
`pop()` exhausts the heap and raises.  On an unobstructed instance the
claimed contract is met exactly: at most `limit` expansions, a returned
path of consecutive neighbors from the start, no element occupied, last
element the target. -/
theorem c3_path_between_allTombstone_crash :
    (pathBetween crashMap ⟨0, 0⟩ ⟨0, -3⟩ 20 idPerm = none) ∧
    ((pathBetweenFull soloMap ⟨0, 0⟩ ⟨5, 0⟩ 20 idPerm).map (fun r => (r.1, r.2.expanded))
        = some ([⟨1, 0⟩, ⟨2, 0⟩, ⟨3, 0⟩, ⟨4, 0⟩, ⟨5, 0⟩],
           [⟨0, 0⟩, ⟨1, 0⟩, ⟨2, 0⟩, ⟨3, 0⟩, ⟨4, 0⟩, ⟨5, 0⟩]) ∧
      (∀ x ∈ [(⟨1, 0⟩ : Position), ⟨2, 0⟩, ⟨3, 0⟩, ⟨4, 0⟩, ⟨5, 0⟩], soloMap x = none) ∧
      (⟨1, 0⟩ : Position) ∈ (⟨0, 0⟩ : Position).neighbors ∧
      (⟨2, 0⟩ : Position) ∈ (⟨1, 0⟩ : Position).neighbors ∧
      (⟨3, 0⟩ : Position) ∈ (⟨2, 0⟩ : Position).neighbors ∧
      (⟨4, 0⟩ : Position) ∈ (⟨3, 0⟩ : Position).neighbors ∧
      (⟨5, 0⟩ : Position) ∈ (⟨4, 0⟩ : Position).neighbors ∧
      ([(⟨0, 0⟩ : Position), ⟨1, 0⟩, ⟨2, 0⟩, ⟨3, 0⟩, ⟨4, 0⟩, ⟨5, 0⟩].length ≤ 20)) := by
  refine ⟨?_, ?_, ?_, ?_, ?_, ?_, ?_, ?_, ?_⟩ <;> with_unfolding_all decide

/-! ## C6: the Transmute conversion formula -/

theorem resourceValues_pos {rt : ResourceType} {v : Rat}
    (h : resourceValues rt = some v) : 0 < v := by
  cases rt <;> simp [resourceValues] at h <;> rw [← h] <;> norm_num

theorem resourceValues_ne_null {rt : ResourceType} {v : Rat}
    (h : resourceValues rt = some v) : rt ≠ .null := by
  intro hn
  subst hn
  simp [resourceValues] at h

theorem spend_single_ok {p : Pools} {rt : ResourceType} {amt : Int} {bal : Rat}
    (hbal : getPool p rt = some bal) (hge : (amt : Rat) ≤ bal) :
    spend [(rt, amt)] p = .ok (setPool p rt (bal - (amt : Rat))) := by
  simp only [spend, spendCheck, spendDebit, hbal, if_neg (not_lt.mpr hge)]

theorem addResource_some {p : Pools} {rt : ResourceType} {amt : Int} {bal : Rat}
    (hbal : getPool p rt = some bal) :
    addResource p rt amt = some (setPool p rt (bal + (amt : Rat))) := by
  rw [addResource, hbal]

/-- One successful Transmute activation under sufficient balance, with the
resulting credit, behaviour state and pools made explicit. -/
theorem transmuteActivate_success
    {b : TransmuteS} {p : Pools} {vFrom vTo balF balT : Rat}
    (hf : resourceValues b.fromR = some vFrom)
    (ht : resourceValues b.toR = some vTo)
    (hne : b.fromR ≠ b.toR)
    (hrate : 0 < b.currentRate) (heff : 0 ≤ b.efficiency) (hrem : 0 ≤ b.remainder)
    (hbalF : getPool p b.fromR = some balF)
    (hbalT : getPool p b.toR = some balT)
    (hge : (b.currentRate : Rat) ≤ balF) :
    transmuteActivate b p = some (true,
      ⌊(b.currentRate : Rat) * vFrom / vTo * b.efficiency + b.remainder⌋,
      { b with remainder := (b.currentRate : Rat) * vFrom / vTo * b.efficiency + b.remainder
          - (⌊(b.currentRate : Rat) * vFrom / vTo * b.efficiency + b.remainder⌋ : Rat) },
      setPool (setPool p b.fromR (balF - (b.currentRate : Rat))) b.toR
        (balT + (⌊(b.currentRate : Rat) * vFrom / vTo * b.efficiency + b.remainder⌋ : Rat))) := by
  have hvF := resourceValues_pos hf
  have hvT := resourceValues_pos ht
  have hnF := resourceValues_ne_null hf
  have hnT := resourceValues_ne_null ht
  have hfrac : (0 : Rat) ≤ (b.currentRate : Rat) * vFrom / vTo * b.efficiency + b.remainder := by
    have h1 : (0 : Rat) ≤ (b.currentRate : Rat) := by
      exact_mod_cast le_of_lt hrate
    positivity
  rw [transmuteActivate]
  rw [if_neg (by simp [hnF, hnT]), if_neg (by simpa using Int.ne_of_gt hrate)]
  rw [hf, ht]
  simp only []
  rw [show pyTrunc ((b.currentRate : Rat) * vFrom / vTo * b.efficiency + b.remainder)
      = ⌊(b.currentRate : Rat) * vFrom / vTo * b.efficiency + b.remainder⌋ by
    rw [pyTrunc, if_pos hfrac]]
  rw [spend_single_ok hbalF hge]
  simp only []
  rw [addResource_some (by rw [getPool_set_other (fun h => hne h.symm)]; exact hbalT)]

/-- C6, general part: iterated code activations agree with the spec's
conversion formula, proved by induction with the linkage
`spec remainder = v_to * code remainder`. -/
theorem transmuteIter_spec :
    ∀ (n : Nat) (b : TransmuteS) (p : Pools) (vFrom vTo balF balT : Rat),
      resourceValues b.fromR = some vFrom →
      resourceValues b.toR = some vTo →
      b.fromR ≠ b.toR →
      0 < b.currentRate → 0 ≤ b.efficiency → 0 ≤ b.remainder →
      getPool p b.fromR = some balF →
      getPool p b.toR = some balT →
      (n : Rat) * (b.currentRate : Rat) ≤ balF →
      ∃ credits b' p',
        transmuteIter n b p = some (credits, b', p') ∧
        credits = (specTransmuteRun b.currentRate vFrom vTo b.efficiency n
          (vTo * b.remainder)).1 ∧
        getPool p' b.fromR = some (balF - (n : Rat) * (b.currentRate : Rat)) ∧
        getPool p' b.toR = some (balT + (credits.sum : Rat)) := by
  intro n
  induction n with
  | zero =>
    intro b p vFrom vTo balF balT hf ht hne hrate heff hrem hbalF hbalT hge
    refine ⟨[], b, p, rfl, rfl, ?_, ?_⟩
    · rw [hbalF]; norm_num
    · rw [hbalT]; norm_num
  | succ n ih =>
    intro b p vFrom vTo balF balT hf ht hne hrate heff hrem hbalF hbalT hge
    have hvT := resourceValues_pos ht
    have hrQ : (0 : Rat) < (b.currentRate : Rat) := by exact_mod_cast hrate
    have hge1 : (b.currentRate : Rat) ≤ balF := by
      have : (1 : Rat) * (b.currentRate : Rat) ≤ ((n : Rat) + 1) * (b.currentRate : Rat) := by
        apply mul_le_mul_of_nonneg_right _ (le_of_lt hrQ)
        have : (0 : Rat) ≤ (n : Rat) := by positivity
        linarith
      calc (b.currentRate : Rat) = 1 * (b.currentRate : Rat) := by ring
        _ ≤ ((n : Rat) + 1) * (b.currentRate : Rat) := this
        _ ≤ balF := by
          have hcast : ((n : Rat) + 1) = ((n + 1 : Nat) : Rat) := by push_cast; ring
          rw [hcast]; exact_mod_cast hge
    set frac := (b.currentRate : Rat) * vFrom / vTo * b.efficiency + b.remainder with hfrac
    have hstep := transmuteActivate_success hf ht hne hrate heff hrem hbalF hbalT hge1
    have hrem' : (0 : Rat) ≤ frac - (⌊frac⌋ : Rat) := by
      have := Int.floor_le frac
      linarith
    obtain ⟨credits, b', p', hiter, hcred, hpF, hpT⟩ :=
      ih { b with remainder := frac - (⌊frac⌋ : Rat) }
        (setPool (setPool p b.fromR (balF - (b.currentRate : Rat))) b.toR
          (balT + (⌊frac⌋ : Rat)))
        vFrom vTo (balF - (b.currentRate : Rat)) (balT + (⌊frac⌋ : Rat))
        hf ht hne hrate heff hrem'
        (by rw [getPool_set_other hne, getPool_set_same hbalF])
        (by rw [getPool_set_same (by rw [getPool_set_other (fun h => hne h.symm)]; exact hbalT)])
        (by push_cast at hge ⊢; nlinarith)
    refine ⟨⌊frac⌋ :: credits, b', p', ?_, ?_, ?_, ?_⟩
    · rw [transmuteIter, hstep]
      simp only []
      rw [hiter]
      rfl
    · have hvT0 : vTo ≠ 0 := ne_of_gt hvT
      have harg : ((b.currentRate : Rat) * vFrom * b.efficiency + vTo * b.remainder) / vTo
          = frac := by
        rw [hfrac]
        field_simp
        ring
      have hstep1 : (specTransmuteStep b.currentRate vFrom vTo b.efficiency
          (vTo * b.remainder)).1 = ⌊frac⌋ := by
        rw [specTransmuteStep]
        simp only []
        rw [harg]
      have hstep2 : (specTransmuteStep b.currentRate vFrom vTo b.efficiency
          (vTo * b.remainder)).2 = vTo * (frac - (⌊frac⌋ : Rat)) := by
        rw [specTransmuteStep]
        simp only []
        rw [harg, hfrac]
        field_simp
        ring
      rw [specTransmuteRun]
      simp only [hstep1, hstep2, List.cons.injEq]
      exact ⟨trivial, by rw [hcred]⟩
    · rw [hpF]
      congr 1
      push_cast
      ring
    · rw [hpT]
      congr 1
      push_cast [List.sum_cons]
      ring

/-- C6.  A successful Transmute activation debits `rate` units of the
source resource and credits exactly
`⌊(rate * v_from * efficiency + remainder) / v_to⌋` units of the target,
carrying the fractional residue of that division to the next activation
(the code stores the residue divided by `v_to`; the credited sequences are
identical).  In particular seven activations at `rate=3`, Food(0.5) to
Gold(1.0), efficiency `0.8`, credit 8 gold in total and debit 21 food. -/
theorem c6_transmute_formula :
    (∀ (n : Nat) (b : TransmuteS) (p : Pools) (vFrom vTo balF balT : Rat),
      resourceValues b.fromR = some vFrom →
      resourceValues b.toR = some vTo →
      b.fromR ≠ b.toR →
      0 < b.currentRate → 0 ≤ b.efficiency → 0 ≤ b.remainder →
      getPool p b.fromR = some balF →
      getPool p b.toR = some balT →
      (n : Rat) * (b.currentRate : Rat) ≤ balF →
      ∃ credits b' p',
        transmuteIter n b p = some (credits, b', p') ∧
        credits = (specTransmuteRun b.currentRate vFrom vTo b.efficiency n
          (vTo * b.remainder)).1 ∧
        getPool p' b.fromR = some (balF - (n : Rat) * (b.currentRate : Rat)) ∧
        getPool p' b.toR = some (balT + (credits.sum : Rat))) ∧
    ((transmuteIter 7 scenarioTransmute initPools).map
        (fun r => (r.1, r.2.2.food, r.2.2.gold))
      = some ([1, 1, 1, 1, 2, 1, 1], 979, 1008) ∧
      ([1, 1, 1, 1, 2, 1, 1] : List Int).sum = 8 ∧
      (1000 : Rat) - 979 = 21 ∧
      (specTransmuteRun 3 (1/2) 1 (4/5) 7 0).1 = [1, 1, 1, 1, 2, 1, 1]) := by
  refine ⟨transmuteIter_spec, ?_, ?_, ?_, ?_⟩
  · set_option maxRecDepth 4000 in with_unfolding_all decide
  · decide
  · norm_num
  · set_option maxRecDepth 4000 in with_unfolding_all decide

set_option maxRecDepth 8000 in
/-- Witness for C6's universally quantified part at the spec scenario. -/
theorem c6_transmute_formula_witness :
    (resourceValues scenarioTransmute.fromR = some (1/2) ∧
      resourceValues scenarioTransmute.toR = some 1 ∧
      scenarioTransmute.fromR ≠ scenarioTransmute.toR ∧
      0 < scenarioTransmute.currentRate ∧ 0 ≤ scenarioTransmute.efficiency ∧
      0 ≤ scenarioTransmute.remainder ∧
      getPool initPools scenarioTransmute.fromR = some 1000 ∧
      getPool initPools scenarioTransmute.toR = some 1000 ∧
      ((7 : Nat) : Rat) * (scenarioTransmute.currentRate : Rat) ≤ 1000) ∧
    (∃ credits b' p',
      transmuteIter 7 scenarioTransmute initPools = some (credits, b', p') ∧
      credits = (specTransmuteRun scenarioTransmute.currentRate (1/2) 1
        scenarioTransmute.efficiency 7 (1 * scenarioTransmute.remainder)).1 ∧
      getPool p' scenarioTransmute.fromR
        = some (1000 - ((7 : Nat) : Rat) * (scenarioTransmute.currentRate : Rat)) ∧
      getPool p' scenarioTransmute.toR = some (1000 + (credits.sum : Rat))) := by
  constructor
  · refine ⟨?_, ?_, ?_, ?_, ?_, ?_, ?_, ?_, ?_⟩ <;> with_unfolding_all decide
  · exact c6_transmute_formula.1 7 scenarioTransmute initPools (1/2) 1 1000 1000
      (by with_unfolding_all decide) (by with_unfolding_all decide)
      (by with_unfolding_all decide) (by with_unfolding_all decide)
      (by with_unfolding_all decide) (by with_unfolding_all decide)
      (by with_unfolding_all decide) (by with_unfolding_all decide)
      (by with_unfolding_all decide)

/-! ## C5: `PathingBehaviour.move_toward` and the reserved step stack -/

theorem pyPop_reverse {α : Type} (x : α) (xs : List α) :
    pyPop ((x :: xs).reverse) = some (x, xs.reverse) := by
  rw [pyPop, List.reverse_reverse]

/-- `move_entity` through the wrapper always succeeds onto a free cell (or
onto the entity's own cell), yielding the moved entity object. -/
theorem moveEntityE_free {g : GameS} {e : EntityS} {x : Position}
    (hfree : g.emap x = none) :
    ∃ g', moveEntityE g e x = .ok (g', { e with pos := x }) := by
  rw [moveEntityE, moveEntity]
  by_cases hpos : e.pos = x
  · refine ⟨g, ?_⟩
    rw [if_pos hpos]
    rfl
  · refine ⟨{ g with
      emap := fupd (fupd g.emap e.pos none) x (some e.id),
      ents := fupd g.ents e.id (some { e with pos := x }),
      queued := bupd g.queued e.id true }, ?_⟩
    rw [if_neg hpos, if_neg (by rw [hfree]; simp)]
    rfl

/-- The truncation behaviour of `move_toward` on a returned non-empty path
whose first kept step is free. -/
theorem moveToward_spec :
    ∀ (g : GameS) (b : PathingS) (e : EntityS) (t : Position) (limit : Nat)
      (perm : Nat → List Position → List Position) (p : List Position),
      pathBetween g.emap e.pos t limit perm = some p → p ≠ [] →
      g.emap p.headI = none →
      ∃ b' g', moveToward g b e t limit perm
          = some (true, b', g', { e with pos := p.headI }) ∧
        (p.take (p.length / 5 + 1)).length = p.length / 5 + 1 ∧
        (p.length / 5 + 1 = 1 → b' = b) ∧
        (2 ≤ p.length / 5 + 1 →
          b' = { b with path := ((p.take (p.length / 5 + 1)).drop 1).reverse }) := by
  intro g b e t limit perm p hpath hne hfree
  have hlen : 1 ≤ p.length := List.length_pos.mpr hne
  have htake : (p.take (p.length / 5 + 1)).length = p.length / 5 + 1 := by
    rw [List.length_take]
    omega
  have hie : p.isEmpty = false := by
    cases p with
    | nil => exact absurd rfl hne
    | cons y ys => rfl
  rw [moveToward, hpath]
  simp only [hie, Bool.false_eq_true, if_false]
  cases hk : p.take (p.length / 5 + 1) with
  | nil => rw [hk] at htake; simp at htake
  | cons x xs =>
    have hx : x = p.headI := by
      cases p with
      | nil => exact absurd rfl hne
      | cons y ys =>
        rw [List.take_succ_cons] at hk
        injection hk with h1 _
        rw [h1]
        rfl
    subst hx
    obtain ⟨g', hmv⟩ := moveEntityE_free (e := e) hfree
    cases xs with
    | nil =>
      simp only []
      rw [hmv]
      refine ⟨b, g', rfl, by rw [← hk]; exact htake, fun _ => rfl, fun h2 => ?_⟩
      exfalso
      have ht2 := htake
      rw [hk] at ht2
      simp at ht2
      omega
    | cons z zs =>
      simp only [pyPop_reverse]
      rw [hmv]
      refine ⟨{ b with path := (z :: zs).reverse }, g', rfl, by rw [← hk]; exact htake,
        fun h1 => ?_, fun _ => ?_⟩
      · exfalso
        have ht2 := htake
        rw [hk] at ht2
        simp at ht2
        omega
      · rfl

/-- The blocked-stored-step behaviour of `on_activate`: an occupied next
step clears the stack; with no manual target, no move happens. -/
theorem pathingActivate_blocked :
    ∀ (g : GameS) (b : PathingS) (e : EntityS) (limit : Nat)
      (perm : Nat → List Position → List Position) (nxt : Position) (rest : List Position),
      pyPop b.path = some (nxt, rest) → (g.emap nxt).isSome = true → b.targetPos = none →
      pathingActivate g b e limit perm = some (false, { b with path := [] }, g, e) := by
  intro g b e limit perm nxt rest hpop hocc htgt
  rw [pathingActivate, hpop]
  simp only [hocc, if_true, htgt]

/-- C5 (amended).  For every non-empty path of length `n` returned by the
planner whose first kept step is free, `move_toward` keeps exactly
`n / 5 + 1` steps — *not* `⌈n/5⌉` — executing the first immediately and,
when more than one step is kept, storing the remainder (reversed) on the
reserved step stack; and if a stored next step is occupied when popped, the
stack is cleared and no move is made from the stored path — with no manual
target set, the activation performs no move at all (with a manual target
set, control falls through to replanning within the same activation). -/
theorem c5_move_toward_truncation :
    (∀ (g : GameS) (b : PathingS) (e : EntityS) (t : Position) (limit : Nat)
      (perm : Nat → List Position → List Position) (p : List Position),
      pathBetween g.emap e.pos t limit perm = some p → p ≠ [] →
      g.emap p.headI = none →
      ∃ b' g', moveToward g b e t limit perm
          = some (true, b', g', { e with pos := p.headI }) ∧
        (p.take (p.length / 5 + 1)).length = p.length / 5 + 1 ∧
        (p.length / 5 + 1 = 1 → b' = b) ∧
        (2 ≤ p.length / 5 + 1 →
          b' = { b with path := ((p.take (p.length / 5 + 1)).drop 1).reverse })) ∧
    (∀ (g : GameS) (b : PathingS) (e : EntityS) (limit : Nat)
      (perm : Nat → List Position → List Position) (nxt : Position) (rest : List Position),
      pyPop b.path = some (nxt, rest) → (g.emap nxt).isSome = true → b.targetPos = none →
      pathingActivate g b e limit perm = some (false, { b with path := [] }, g, e)) :=
  ⟨moveToward_spec, pathingActivate_blocked⟩

/-- C5 counterexample to the claim as stated: on the length-5 path from
`(0,0)` to `(5,0)` the mover keeps 2 steps (one executed, one stored),
whereas the claim's `⌈5/5⌉` is 1. -/
theorem c5_move_toward_truncation_counterexample :
    pathBetween soloGame.emap soloEnt.pos ⟨5, 0⟩ 20 idPerm
      = some [⟨1, 0⟩, ⟨2, 0⟩, ⟨3, 0⟩, ⟨4, 0⟩, ⟨5, 0⟩] ∧
    ((moveToward soloGame ⟨some ⟨5, 0⟩, []⟩ soloEnt ⟨5, 0⟩ 20 idPerm).map
        (fun r => (r.1, r.2.1, r.2.2.2.pos))
      = some (true, (⟨some ⟨5, 0⟩, [⟨2, 0⟩]⟩ : PathingS), (⟨1, 0⟩ : Position))) ∧
    1 + [(⟨2, 0⟩ : Position)].length = 2 ∧ (5 + 4) / 5 = (1 : Nat) ∧ (2 : Nat) ≠ 1 := by
  refine ⟨?_, ?_, ?_, ?_, ?_⟩ <;> with_unfolding_all decide

/-- Witness for C5 at the concrete length-5-path scenario and a concrete
blocked-step state. -/
theorem c5_move_toward_truncation_witness :
    (pathBetween soloGame.emap soloEnt.pos ⟨5, 0⟩ 20 idPerm
        = some [⟨1, 0⟩, ⟨2, 0⟩, ⟨3, 0⟩, ⟨4, 0⟩, ⟨5, 0⟩] ∧
      ([(⟨1, 0⟩ : Position), ⟨2, 0⟩, ⟨3, 0⟩, ⟨4, 0⟩, ⟨5, 0⟩] : List Position) ≠ [] ∧
      soloGame.emap ([(⟨1, 0⟩ : Position), ⟨2, 0⟩, ⟨3, 0⟩, ⟨4, 0⟩, ⟨5, 0⟩]).headI = none ∧
      (∃ b' g', moveToward soloGame ⟨some ⟨5, 0⟩, []⟩ soloEnt ⟨5, 0⟩ 20 idPerm
          = some (true, b', g',
              { soloEnt with
                pos := ([(⟨1, 0⟩ : Position), ⟨2, 0⟩, ⟨3, 0⟩, ⟨4, 0⟩, ⟨5, 0⟩]).headI }) ∧
        (([(⟨1, 0⟩ : Position), ⟨2, 0⟩, ⟨3, 0⟩, ⟨4, 0⟩, ⟨5, 0⟩]).take (5 / 5 + 1)).length
          = 5 / 5 + 1 ∧
        (5 / 5 + 1 = 1 → b' = ⟨some ⟨5, 0⟩, []⟩) ∧
        (2 ≤ 5 / 5 + 1 → b' = ⟨some ⟨5, 0⟩,
          ((([(⟨1, 0⟩ : Position), ⟨2, 0⟩, ⟨3, 0⟩, ⟨4, 0⟩, ⟨5, 0⟩]).take (5 / 5 + 1)).drop
            1).reverse⟩))) ∧
    (pyPop ([(⟨0, 0⟩ : Position)]) = some (⟨0, 0⟩, []) ∧
      (soloGame.emap ⟨0, 0⟩).isSome = true ∧
      pathingActivate soloGame ⟨none, [⟨0, 0⟩]⟩ soloEnt 20 idPerm
        = some (false, ⟨none, []⟩, soloGame, soloEnt)) := by
  refine ⟨⟨?_, ?_, ?_, ?_⟩, ?_, ?_, ?_⟩
  · with_unfolding_all decide
  · decide
  · with_unfolding_all decide
  · exact c5_move_toward_truncation.1 soloGame ⟨some ⟨5, 0⟩, []⟩ soloEnt ⟨5, 0⟩ 20 idPerm
      [⟨1, 0⟩, ⟨2, 0⟩, ⟨3, 0⟩, ⟨4, 0⟩, ⟨5, 0⟩] (by with_unfolding_all decide) (by decide)
      (by with_unfolding_all decide)
  · with_unfolding_all decide
  · with_unfolding_all decide
  · exact c5_move_toward_truncation.2 soloGame ⟨none, [⟨0, 0⟩]⟩ soloEnt 20 idPerm ⟨0, 0⟩ []
      (by with_unfolding_all decide) (by with_unfolding_all decide) rfl

/-! ## C4: the priority queue pops in key order without duplicates -/

theorem keyLt_iff (p₁ s₁ p₂ s₂ : Nat) :
    keyLt p₁ s₁ p₂ s₂ = true ↔ (p₁ < p₂ ∨ (p₁ = p₂ ∧ s₁ < s₂)) := by
  simp [keyLt]

theorem keyLt_total {p₁ s₁ p₂ s₂ : Nat} (h : s₁ ≠ s₂) :
    keyLt p₁ s₁ p₂ s₂ = true ∨ keyLt p₂ s₂ p₁ s₁ = true := by
  rw [keyLt_iff, keyLt_iff]
  omega

theorem keyLt_asymm {p₁ s₁ p₂ s₂ : Nat} (h₁ : keyLt p₁ s₁ p₂ s₂ = true)
    (h₂ : keyLt p₂ s₂ p₁ s₁ = true) : False := by
  rw [keyLt_iff] at h₁ h₂
  omega

theorem keyLt_trans {p₁ s₁ p₂ s₂ p₃ s₃ : Nat} (h₁ : keyLt p₁ s₁ p₂ s₂ = true)
    (h₂ : keyLt p₂ s₂ p₃ s₃ = true) : keyLt p₁ s₁ p₃ s₃ = true := by
  rw [keyLt_iff] at h₁ h₂ ⊢
  omega

theorem mem_heapPush {α : Type} (l : List (PQEntry α)) (e f : PQEntry α) :
    f ∈ heapPush l e ↔ f = e ∨ f ∈ l := by
  induction l with
  | nil => simp [heapPush]
  | cons x xs ih =>
    rw [heapPush]
    split
    · simp
    · simp only [List.mem_cons, ih]
      tauto

theorem heapPush_sorted {α : Type} {l : List (PQEntry α)} {e : PQEntry α}
    (hs : List.Pairwise entryKeyLt l) (hd : ∀ f ∈ l, f.seq ≠ e.seq) :
    List.Pairwise entryKeyLt (heapPush l e) := by
  induction l with
  | nil => simp [heapPush]
  | cons x xs ih =>
    rw [heapPush]
    rw [List.pairwise_cons] at hs
    split
    · rename_i hlt
      rw [List.pairwise_cons]
      constructor
      · intro f hf
        rcases List.mem_cons.mp hf with hfx | hfxs
        · rw [hfx]; exact hlt
        · exact keyLt_trans hlt (hs.1 f hfxs)
      · exact List.pairwise_cons.mpr hs
    · rename_i hnlt
      rw [List.pairwise_cons]
      constructor
      · intro f hf
        rcases (mem_heapPush xs e f).mp hf with hfe | hfxs
        · rw [hfe]
          rcases keyLt_total (fun hh => hd x (by simp) hh.symm) with h | h
          · exact absurd h hnlt
          · exact h
        · exact hs.1 f hfxs
      · exact ih hs.2 (fun f hf => hd f (by simp [hf]))

theorem heapPush_seq_distinct {α : Type} {l : List (PQEntry α)} {e : PQEntry α}
    (hs : List.Pairwise (fun a b : PQEntry α => a.seq ≠ b.seq) l)
    (hd : ∀ f ∈ l, f.seq ≠ e.seq) :
    List.Pairwise (fun a b : PQEntry α => a.seq ≠ b.seq) (heapPush l e) := by
  induction l with
  | nil => simp [heapPush]
  | cons x xs ih =>
    rw [heapPush]
    rw [List.pairwise_cons] at hs
    split
    · rw [List.pairwise_cons]
      refine ⟨?_, List.pairwise_cons.mpr hs⟩
      intro f hf
      rcases List.mem_cons.mp hf with hfx | hfxs
      · rw [hfx]; exact fun hh => hd x (by simp) hh.symm
      · exact fun hh => hd f (by simp [hfxs]) hh.symm
    · rw [List.pairwise_cons]
      constructor
      · intro f hf
        rcases (mem_heapPush xs e f).mp hf with hfe | hfxs
        · rw [hfe]; exact hd x (by simp)
        · exact hs.1 f hfxs
      · exact ih hs.2 (fun f hf => hd f (by simp [hf]))

theorem lookup_mem {α β : Type} [DecidableEq α] {l : List (α × β)} {x : α} {v : β}
    (h : List.lookup x l = some v) : (x, v) ∈ l := by
  induction l with
  | nil => simp [List.lookup] at h
  | cons c rest ih =>
    rw [List.lookup] at h
    cases hb : (x == c.1) with
    | true =>
      rw [hb] at h
      have h' : some c.2 = some v := h
      injection h' with h'
      exact List.mem_cons.mpr (Or.inl (by rw [beq_iff_eq.mp hb, ← h']))
    | false =>
      rw [hb] at h
      have h' : List.lookup x rest = some v := h
      exact List.mem_cons.mpr (Or.inr (ih h'))

theorem lookup_none {α β : Type} [DecidableEq α] {l : List (α × β)} {x : α}
    (h : List.lookup x l = none) : ∀ v, (x, v) ∉ l := by
  induction l with
  | nil => simp
  | cons c rest ih =>
    rw [List.lookup] at h
    cases hb : (x == c.1) with
    | true =>
      rw [hb] at h
      exact absurd h (by simp)
    | false =>
      rw [hb] at h
      have h' : List.lookup x rest = none := h
      intro v hv
      rcases List.mem_cons.mp hv with hvc | hvrest
      · have hx1 : x = c.1 := congrArg Prod.fst hvc
        exact absurd (beq_iff_eq.mpr hx1) (by simp [hb])
      · exact ih h' v hvrest

theorem keys_nodup_unique {α β : Type} {l : List (α × β)}
    (hn : (l.map Prod.fst).Nodup) {x : α} {v w : β}
    (hv : (x, v) ∈ l) (hw : (x, w) ∈ l) : v = w := by
  induction l with
  | nil => simp at hv
  | cons c rest ih =>
    rw [List.map_cons, List.nodup_cons] at hn
    rcases List.mem_cons.mp hv with h1 | h1 <;> rcases List.mem_cons.mp hw with h2 | h2
    · rw [← h1] at h2; injection h2 with _ h2; exact h2.symm
    · exfalso
      exact hn.1 (List.mem_map.mpr ⟨(x, w), h2, by rw [← h1]⟩)
    · exfalso
      exact hn.1 (List.mem_map.mpr ⟨(x, v), h1, by rw [← h2]⟩)
    · exact ih hn.2 h1 h2


theorem pairwise_seq_unique {α : Type} {l : List (PQEntry α)}
    (h : List.Pairwise (fun a b : PQEntry α => a.seq ≠ b.seq) l)
    {a b : PQEntry α} (ha : a ∈ l) (hb : b ∈ l) (hs : a.seq = b.seq) : a = b := by
  induction l with
  | nil => simp at ha
  | cons c rest ih =>
    rw [List.pairwise_cons] at h
    rcases List.mem_cons.mp ha with h1 | h1 <;> rcases List.mem_cons.mp hb with h2 | h2
    · rw [h1, h2]
    · exact absurd (h1 ▸ hs) (h.1 b h2)
    · exact absurd (h2 ▸ hs).symm (h.1 a h1)
    · exact ih h.2 h1 h2

theorem replaceEntry_keys {α : Type} [DecidableEq α]
    (l : List (α × Nat × Nat)) (x : α) (v : Nat × Nat) :
    (replaceEntry l x v).map Prod.fst = l.map Prod.fst := by
  induction l with
  | nil => rfl
  | cons c rest ih =>
    simp only [replaceEntry, List.map_cons] at ih ⊢
    congr 1
    by_cases hc : c.1 = x
    · simp [hc]
    · simp [hc]

theorem mem_replaceEntry {α : Type} [DecidableEq α] {l : List (α × Nat × Nat)}
    {x : α} {v : Nat × Nat} {y : α} {w : Nat × Nat} :
    (y, w) ∈ replaceEntry l x v ↔
      ((y = x ∧ w = v ∧ ∃ u, (x, u) ∈ l) ∨ ((y, w) ∈ l ∧ y ≠ x)) := by
  simp only [replaceEntry, List.mem_map]
  constructor
  · rintro ⟨c, hc, hfc⟩
    by_cases hcx : c.1 = x
    · rw [if_pos hcx] at hfc
      injection hfc with h1 h2
      left
      refine ⟨h1.symm, h2.symm, c.2, ?_⟩
      rw [← hcx]
      exact hc
    · rw [if_neg hcx] at hfc
      subst hfc
      exact Or.inr ⟨hc, hcx⟩
  · rintro (⟨hy, hw, u, hu⟩ | ⟨hmem, hne⟩)
    · exact ⟨(x, u), hu, by simp [hy, hw]⟩
    · exact ⟨(y, w), hmem, by simp [hne]⟩

theorem tombAt_priority {α : Type} (s₀ : Nat) (e : PQEntry α) :
    ((if e.seq = s₀ then { e with item := none } else e) : PQEntry α).priority = e.priority := by
  split <;> rfl

theorem tombAt_seq {α : Type} (s₀ : Nat) (e : PQEntry α) :
    ((if e.seq = s₀ then { e with item := none } else e) : PQEntry α).seq = e.seq := by
  split <;> rfl

theorem tomb_mem_live {α : Type} {l : List (PQEntry α)} {s₀ p s : Nat} {x : α} :
    (⟨p, s, some x⟩ : PQEntry α) ∈
        l.map (fun e => if e.seq = s₀ then { e with item := none } else e) ↔
      ((⟨p, s, some x⟩ : PQEntry α) ∈ l ∧ s ≠ s₀) := by
  rw [List.mem_map]
  constructor
  · rintro ⟨e, he, hfe⟩
    by_cases hs : e.seq = s₀
    · rw [if_pos hs] at hfe
      exact absurd (congrArg PQEntry.item hfe) (by simp)
    · rw [if_neg hs] at hfe
      subst hfe
      exact ⟨he, hs⟩
  · rintro ⟨he, hs⟩
    exact ⟨⟨p, s, some x⟩, he, by simp [hs]⟩

theorem tomb_pairwise_key {α : Type} {l : List (PQEntry α)} (s₀ : Nat)
    (h : List.Pairwise entryKeyLt l) :
    List.Pairwise entryKeyLt
      (l.map (fun e => if e.seq = s₀ then { e with item := none } else e)) := by
  rw [List.pairwise_map]
  exact h.imp (fun hab => by simpa only [entryKeyLt, tombAt_priority, tombAt_seq] using hab)

theorem tomb_pairwise_seq {α : Type} {l : List (PQEntry α)} (s₀ : Nat)
    (h : List.Pairwise (fun a b : PQEntry α => a.seq ≠ b.seq) l) :
    List.Pairwise (fun a b : PQEntry α => a.seq ≠ b.seq)
      (l.map (fun e => if e.seq = s₀ then { e with item := none } else e)) := by
  rw [List.pairwise_map]
  exact h.imp (fun hab => by simpa only [tombAt_seq] using hab)

theorem tomb_seq_bound {α : Type} {l : List (PQEntry α)} {s₀ c : Nat}
    (h : ∀ e ∈ l, e.seq < c) :
    ∀ f ∈ l.map (fun e => if e.seq = s₀ then { e with item := none } else e), f.seq < c := by
  intro f hf
  rcases List.mem_map.mp hf with ⟨e, he, hfe⟩
  rw [← hfe, tombAt_seq]
  exact h e he

theorem pqinv_empty {α : Type} : PQInv (PQueue.empty : PQueue α) := by
  refine ⟨List.Pairwise.nil, ?_, List.Pairwise.nil, ?_, List.nodup_nil⟩
  · intro e he
    simp [PQueue.empty] at he
  · intro x p s
    simp [PQueue.empty]

theorem add_inv {α : Type} [DecidableEq α] {q : PQueue α} (h : PQInv q) (x : α) (p : Nat) :
    PQInv (q.add x p) := by
  obtain ⟨hsort, hbound, hseq, hiff, hkeys⟩ := h
  rw [PQueue.add]
  cases hlk : List.lookup x q.entries with
  | none =>
    refine ⟨?_, ?_, ?_, ?_, ?_⟩
    · exact heapPush_sorted hsort (fun f hf => Nat.ne_of_lt (hbound f hf))
    · intro e he
      rcases (mem_heapPush _ _ _).mp he with he' | he'
      · rw [he']
        exact Nat.lt_succ_self _
      · exact Nat.lt_succ_of_lt (hbound e he')
    · exact heapPush_seq_distinct hseq (fun f hf => Nat.ne_of_lt (hbound f hf))
    · intro y pp ss
      constructor
      · intro hmem
        rcases List.mem_append.mp hmem with hm | hm
        · exact (mem_heapPush _ _ _).mpr (Or.inr ((hiff y pp ss).mp hm))
        · have h1 := List.mem_singleton.mp hm
          injection h1 with hy h2
          injection h2 with hp hs
          apply (mem_heapPush _ _ _).mpr
          left
          rw [hy, hp, hs]
      · intro hmem
        rcases (mem_heapPush _ _ _).mp hmem with he | he
        · injection he with h1 h2 h3
          injection h3 with h3
          exact List.mem_append.mpr (Or.inr (by simp [h1, h2, h3]))
        · exact List.mem_append.mpr (Or.inl ((hiff y pp ss).mpr he))
    · rw [List.map_append, List.nodup_append]
      refine ⟨hkeys, by simp, ?_⟩
      intro a ha hax
      rcases List.mem_map.mp ha with ⟨c, hc, hca⟩
      have hax2 : a = x := by simpa using hax
      have hcx : c.1 = x := by rw [hca, hax2]
      have hmem : (x, c.2) ∈ q.entries := by
        rw [← hcx]
        exact hc
      exact lookup_none hlk c.2 hmem
  | some pv =>
    obtain ⟨p₀, s₀⟩ := pv
    simp only []
    by_cases hpp : p₀ = p
    · rw [if_pos hpp]
      exact ⟨hsort, hbound, hseq, hiff, hkeys⟩
    · rw [if_neg hpp]
      have hx₀ : (x, p₀, s₀) ∈ q.entries := lookup_mem hlk
      have hh₀ : (⟨p₀, s₀, some x⟩ : PQEntry α) ∈ q.heap := (hiff x p₀ s₀).mp hx₀
      refine ⟨?_, ?_, ?_, ?_, ?_⟩
      · exact heapPush_sorted (tomb_pairwise_key s₀ hsort)
          (fun g hg => Nat.ne_of_lt (tomb_seq_bound hbound g hg))
      · intro e he
        rcases (mem_heapPush _ _ _).mp he with he' | he'
        · rw [he']
          exact Nat.lt_succ_self _
        · exact Nat.lt_succ_of_lt (tomb_seq_bound hbound e he')
      · exact heapPush_seq_distinct (tomb_pairwise_seq s₀ hseq)
          (fun g hg => Nat.ne_of_lt (tomb_seq_bound hbound g hg))
      · intro y pp ss
        constructor
        · intro hm
          rcases mem_replaceEntry.mp hm with ⟨hy, hw, _, _⟩ | ⟨hm2, hne⟩
          · apply (mem_heapPush _ _ _).mpr
            left
            injection hw with h1 h2
            rw [hy, h1, h2]
          · have hh := (hiff y pp ss).mp hm2
            apply (mem_heapPush _ _ _).mpr
            right
            apply tomb_mem_live.mpr
            refine ⟨hh, ?_⟩
            intro hss
            have hh2 : (⟨pp, s₀, some y⟩ : PQEntry α) ∈ q.heap := by
              rw [← hss]
              exact hh
            have heq := pairwise_seq_unique hseq hh2 hh₀ rfl
            injection heq with h1 h2 h3
            injection h3 with h3
            exact hne h3
        · intro hm
          rcases (mem_heapPush _ _ _).mp hm with he | he
          · injection he with h1 h2 h3
            injection h3 with h3
            apply mem_replaceEntry.mpr
            left
            exact ⟨h3, by rw [h1, h2], (p₀, s₀), hx₀⟩
          · obtain ⟨hh, hss⟩ := tomb_mem_live.mp he
            have hm2 := (hiff y pp ss).mpr hh
            apply mem_replaceEntry.mpr
            right
            refine ⟨hm2, ?_⟩
            intro hyx
            have heq := keys_nodup_unique hkeys (hyx ▸ hm2) hx₀
            injection heq with h1 h2
            exact hss h2
      · rw [replaceEntry_keys]
        exact hkeys

theorem add_entries_counter {α : Type} [DecidableEq α] (q : PQueue α) (x : α) (p : Nat) :
    ((q.add x p).entries, (q.add x p).counter) = survivingStep (q.entries, q.counter) (x, p) := by
  cases hlk : List.lookup x q.entries with
  | none => simp [PQueue.add, survivingStep, hlk]
  | some pv =>
    obtain ⟨p₀, s₀⟩ := pv
    by_cases hpp : p₀ = p
    · simp [PQueue.add, survivingStep, hlk, hpp]
    · simp [PQueue.add, survivingStep, hlk, hpp]

theorem foldl_sync {α : Type} [DecidableEq α] (ops : List (α × Nat)) (q : PQueue α) :
    ((ops.foldl (fun q op => q.add op.1 op.2) q).entries,
        (ops.foldl (fun q op => q.add op.1 op.2) q).counter)
      = ops.foldl survivingStep (q.entries, q.counter) := by
  induction ops generalizing q with
  | nil => rfl
  | cons op rest ih =>
    rw [List.foldl_cons, List.foldl_cons,
      show survivingStep (q.entries, q.counter) op
          = ((q.add op.1 op.2).entries, (q.add op.1 op.2).counter) from
        (add_entries_counter q op.1 op.2).symm]
    exact ih (q.add op.1 op.2)

theorem addAll_entries {α : Type} [DecidableEq α] (ops : List (α × Nat)) :
    (addAll ops).entries = survivingEntries ops :=
  congrArg Prod.fst (foldl_sync ops PQueue.empty)

theorem addAll_inv {α : Type} [DecidableEq α] (ops : List (α × Nat)) : PQInv (addAll ops) := by
  have h : ∀ q : PQueue α, PQInv q → PQInv (ops.foldl (fun q op => q.add op.1 op.2) q) := by
    induction ops with
    | nil => exact fun q hq => hq
    | cons op rest ih => exact fun q hq => ih _ (add_inv hq op.1 op.2)
  exact h PQueue.empty pqinv_empty

theorem surviving_inv {α : Type} [DecidableEq α] (ops : List (α × Nat)) :
    ∀ (l : List (α × Nat × Nat)) (c : Nat),
      (∀ e ∈ l, e.2.2 < c) →
      List.Pairwise (fun a b : α × Nat × Nat => a.2.2 ≠ b.2.2) l →
      (l.map Prod.fst).Nodup →
      (∀ e ∈ (ops.foldl survivingStep (l, c)).1, e.2.2 < (ops.foldl survivingStep (l, c)).2) ∧
      List.Pairwise (fun a b : α × Nat × Nat => a.2.2 ≠ b.2.2) (ops.foldl survivingStep (l, c)).1 ∧
      ((ops.foldl survivingStep (l, c)).1.map Prod.fst).Nodup := by
  induction ops with
  | nil => exact fun l c h1 h2 h3 => ⟨h1, h2, h3⟩
  | cons op rest ih =>
    intro l c h1 h2 h3
    rw [List.foldl_cons]
    obtain ⟨x, p⟩ := op
    cases hlk : List.lookup x l with
    | none =>
      rw [show survivingStep (l, c) (x, p) = (l ++ [(x, p, c)], c + 1) from by
        simp [survivingStep, hlk]]
      apply ih
      · intro e he
        rcases List.mem_append.mp he with he | he
        · exact Nat.lt_succ_of_lt (h1 e he)
        · rw [List.mem_singleton.mp he]
          exact Nat.lt_succ_self c
      · rw [List.pairwise_append]
        refine ⟨h2, by simp, ?_⟩
        intro a ha b hb
        rw [List.mem_singleton.mp hb]
        exact Nat.ne_of_lt (h1 a ha)
      · rw [List.map_append, List.nodup_append]
        refine ⟨h3, by simp, ?_⟩
        intro a ha hax
        rcases List.mem_map.mp ha with ⟨e, hel, hea⟩
        have hax2 : a = x := by simpa using hax
        have hcx : e.1 = x := by rw [hea, hax2]
        have hmem : (x, e.2) ∈ l := by
          rw [← hcx]
          exact hel
        exact lookup_none hlk e.2 hmem
    | some pv =>
      obtain ⟨p₀, s₀⟩ := pv
      by_cases hpp : p₀ = p
      · rw [show survivingStep (l, c) (x, p) = (l, c) from by simp [survivingStep, hlk, hpp]]
        exact ih l c h1 h2 h3
      · rw [show survivingStep (l, c) (x, p) = (replaceEntry l x (p, c), c + 1) from by
          simp [survivingStep, hlk, hpp]]
        apply ih
        · intro e he
          rcases mem_replaceEntry.mp he with ⟨hy, hw, _, _⟩ | ⟨hel, _⟩
          · rw [hw]
            exact Nat.lt_succ_self c
          · exact Nat.lt_succ_of_lt (h1 e hel)
        · unfold replaceEntry
          rw [List.pairwise_map]
          have hkey : List.Pairwise (fun a b : α × Nat × Nat => a.1 ≠ b.1) l :=
            List.pairwise_map.mp h3
          refine List.Pairwise.imp_of_mem ?_ (h2.and hkey)
          intro a b ha hb hab
          obtain ⟨hs, hk⟩ := hab
          by_cases hax : a.1 = x <;> by_cases hbx : b.1 = x
          · exact absurd (hax.trans hbx.symm) hk
          · rw [if_pos hax, if_neg hbx]
            exact (Nat.ne_of_lt (h1 b hb)).symm
          · rw [if_neg hax, if_pos hbx]
            exact Nat.ne_of_lt (h1 a ha)
          · rw [if_neg hax, if_neg hbx]
            exact hs
        · rw [replaceEntry_keys]
          exact h3

theorem surviving_seq_pairwise {α : Type} [DecidableEq α] (ops : List (α × Nat)) :
    List.Pairwise (fun a b : α × Nat × Nat => a.2.2 ≠ b.2.2) (survivingEntries ops) :=
  (surviving_inv ops [] 0 (by simp) List.Pairwise.nil (by simp)).2.1

theorem popHeap_none {α : Type} {l : List (PQEntry α)} (h : popHeap l = none) :
    liveEntries l = [] := by
  induction l with
  | nil => rfl
  | cons e rest ih =>
    rw [popHeap] at h
    cases he : e.item with
    | none =>
      rw [he] at h
      have h2 : popHeap rest = none := h
      unfold liveEntries
      rw [List.filterMap_cons,
        show e.item.map (fun x => (e.priority, e.seq, x)) = none from by rw [he]; rfl]
      exact ih h2
    | some x =>
      rw [he] at h
      have h2 : some ((e.priority, e.seq, x), rest) = (none : Option ((Nat × Nat × α) × List (PQEntry α))) := h
      exact absurd h2 (by simp)

theorem popHeap_some {α : Type} {l : List (PQEntry α)} {t : Nat × Nat × α}
    {rest : List (PQEntry α)} (h : popHeap l = some (t, rest)) :
    liveEntries l = t :: liveEntries rest ∧ rest.length < l.length := by
  induction l with
  | nil => exact absurd h (by simp [popHeap])
  | cons e l2 ih =>
    rw [popHeap] at h
    cases he : e.item with
    | none =>
      rw [he] at h
      have h2 : popHeap l2 = some (t, rest) := h
      obtain ⟨ha, hb⟩ := ih h2
      constructor
      · unfold liveEntries at ha ⊢
        rw [List.filterMap_cons,
          show e.item.map (fun x => (e.priority, e.seq, x)) = none from by rw [he]; rfl]
        exact ha
      · exact Nat.lt_succ_of_lt hb
    | some x =>
      rw [he] at h
      have h2 : some ((e.priority, e.seq, x), l2) = some (t, rest) := h
      injection h2 with h2
      injection h2 with h3 h4
      subst h3
      subst h4
      constructor
      · unfold liveEntries
        rw [List.filterMap_cons,
          show e.item.map (fun y => (e.priority, e.seq, y)) = some (e.priority, e.seq, x) from by
            rw [he]
            rfl]
      · exact Nat.lt_succ_self _

theorem popLoop_live {α : Type} [DecidableEq α] :
    ∀ (fuel : Nat) (q : PQueue α), q.heap.length ≤ fuel → popLoop fuel q = liveEntries q.heap := by
  intro fuel
  induction fuel with
  | zero =>
    intro q hq
    have hnil : q.heap = [] := List.length_eq_zero.mp (Nat.le_zero.mp hq)
    rw [popLoop, hnil]
    rfl
  | succ fuel ih =>
    intro q hq
    rw [popLoop]
    cases hp : q.popEntry with
    | none =>
      have hph : popHeap q.heap = none := by
        unfold PQueue.popEntry at hp
        cases hh : popHeap q.heap with
        | none => rfl
        | some te =>
          rw [hh] at hp
          exact absurd hp (by simp)
      exact (popHeap_none hph).symm
    | some r =>
      obtain ⟨t, q2⟩ := r
      have hph : popHeap q.heap = some (t, q2.heap) := by
        unfold PQueue.popEntry at hp
        cases hh : popHeap q.heap with
        | none =>
          rw [hh] at hp
          exact absurd hp (by simp)
        | some te =>
          rw [hh] at hp
          have hp2 : some (te.1, ({ heap := te.2, entries := removeEntryKey q.entries te.1.2.2, counter := q.counter } : PQueue α)) = some (t, q2) := hp
          injection hp2 with hp2
          injection hp2 with h1 h2
          have h3 : q2.heap = te.2 := (congrArg PQueue.heap h2).symm
          rw [h3, ← h1]
      obtain ⟨hl, hlen⟩ := popHeap_some hph
      rw [hl]
      show t :: popLoop fuel q2 = t :: liveEntries q2.heap
      congr 1
      exact ih q2 (Nat.le_of_lt_succ (Nat.lt_of_lt_of_le hlen hq))

theorem popAllEntries_live {α : Type} [DecidableEq α] (q : PQueue α) :
    popAllEntries q = liveEntries q.heap :=
  popLoop_live q.heap.length q le_rfl

theorem mem_liveEntries {α : Type} {l : List (PQEntry α)} {p s : Nat} {x : α} :
    (p, s, x) ∈ liveEntries l ↔ (⟨p, s, some x⟩ : PQEntry α) ∈ l := by
  unfold liveEntries
  rw [List.mem_filterMap]
  constructor
  · rintro ⟨e, he, hfe⟩
    cases hei : e.item with
    | none =>
      rw [hei] at hfe
      exact absurd hfe (by simp)
    | some y =>
      rw [hei] at hfe
      have hfe2 : some (e.priority, e.seq, y) = some (p, s, x) := hfe
      injection hfe2 with hfe2
      injection hfe2 with h1 h23
      injection h23 with h2 h3
      have hee : e = ⟨p, s, some x⟩ := by
        cases e with
        | mk pr sq it =>
          have h1b : pr = p := h1
          have h2b : sq = s := h2
          have heib : it = some y := hei
          rw [h1b, h2b, heib, h3]
      rw [← hee]
      exact he
  · intro he
    exact ⟨⟨p, s, some x⟩, he, rfl⟩

theorem liveEntries_pairwise {α : Type} {S : PQEntry α → PQEntry α → Prop}
    {R : Nat × Nat × α → Nat × Nat × α → Prop}
    (hRS : ∀ (a b : PQEntry α) (x y : α), a.item = some x → b.item = some y →
      S a b → R (a.priority, a.seq, x) (b.priority, b.seq, y))
    {l : List (PQEntry α)} (h : List.Pairwise S l) :
    List.Pairwise R (liveEntries l) := by
  induction l with
  | nil => exact List.Pairwise.nil
  | cons e l2 ih =>
    rw [List.pairwise_cons] at h
    cases hei : e.item with
    | none =>
      have hstep : liveEntries (e :: l2) = liveEntries l2 := by
        unfold liveEntries
        rw [List.filterMap_cons,
          show e.item.map (fun x => (e.priority, e.seq, x)) = none from by rw [hei]; rfl]
      rw [hstep]
      exact ih h.2
    | some x =>
      have hstep : liveEntries (e :: l2) = (e.priority, e.seq, x) :: liveEntries l2 := by
        unfold liveEntries
        rw [List.filterMap_cons,
          show e.item.map (fun y => (e.priority, e.seq, y)) = some (e.priority, e.seq, x) from by
            rw [hei]
            rfl]
      rw [hstep, List.pairwise_cons]
      refine ⟨?_, ih h.2⟩
      intro t ht
      obtain ⟨p, s, y⟩ := t
      have hb := mem_liveEntries.mp ht
      exact hRS e ⟨p, s, some y⟩ x y hei rfl (h.1 _ hb)

theorem mem_insertByKey {α : Type} (l : List (Nat × Nat × α)) (e t : Nat × Nat × α) :
    t ∈ insertByKey e l ↔ t = e ∨ t ∈ l := by
  induction l with
  | nil => simp [insertByKey]
  | cons x xs ih =>
    rw [insertByKey]
    split
    · simp
    · simp only [List.mem_cons, ih]
      tauto

theorem insertByKey_perm {α : Type} (e : Nat × Nat × α) (l : List (Nat × Nat × α)) :
    (insertByKey e l).Perm (e :: l) := by
  induction l with
  | nil => exact List.Perm.refl _
  | cons x xs ih =>
    rw [insertByKey]
    split
    · exact List.Perm.refl _
    · exact (ih.cons x).trans (List.Perm.swap e x xs)

theorem insertByKey_sorted {α : Type} {l : List (Nat × Nat × α)} {e : Nat × Nat × α}
    (hs : List.Pairwise tripleKeyLt l) (hd : ∀ u ∈ l, u.2.1 ≠ e.2.1) :
    List.Pairwise tripleKeyLt (insertByKey e l) := by
  induction l with
  | nil => simp [insertByKey]
  | cons x xs ih =>
    rw [insertByKey]
    rw [List.pairwise_cons] at hs
    split
    · rename_i hlt
      rw [List.pairwise_cons]
      constructor
      · intro f hf
        rcases List.mem_cons.mp hf with hfx | hfxs
        · rw [hfx]
          exact hlt
        · exact keyLt_trans hlt (hs.1 f hfxs)
      · exact List.pairwise_cons.mpr hs
    · rename_i hnlt
      rw [List.pairwise_cons]
      constructor
      · intro f hf
        rcases (mem_insertByKey xs e f).mp hf with hfe | hfxs
        · rw [hfe]
          rcases keyLt_total (fun hh => hd x (by simp) hh.symm) with h | h
          · exact absurd h hnlt
          · exact h
        · exact hs.1 f hfxs
      · exact ih hs.2 (fun f hf => hd f (by simp [hf]))

theorem sortByKey_perm {α : Type} (l : List (Nat × Nat × α)) : (sortByKey l).Perm l := by
  induction l with
  | nil => exact List.Perm.refl _
  | cons e l2 ih =>
    show (insertByKey e (sortByKey l2)).Perm (e :: l2)
    exact (insertByKey_perm e (sortByKey l2)).trans (ih.cons e)

theorem sortByKey_sorted {α : Type} {l : List (Nat × Nat × α)}
    (h : List.Pairwise (fun t u : Nat × Nat × α => t.2.1 ≠ u.2.1) l) :
    List.Pairwise tripleKeyLt (sortByKey l) := by
  induction l with
  | nil => exact List.Pairwise.nil
  | cons e l2 ih =>
    rw [List.pairwise_cons] at h
    show List.Pairwise tripleKeyLt (insertByKey e (sortByKey l2))
    apply insertByKey_sorted (ih h.2)
    intro u hu
    have hu2 : u ∈ l2 := (sortByKey_perm l2).mem_iff.mp hu
    exact fun hh => h.1 u hu2 hh.symm

instance {α : Type} : IsAntisymm (Nat × Nat × α) tripleKeyLt :=
  ⟨fun _ _ h₁ h₂ => (keyLt_asymm h₁ h₂).elim⟩

theorem mem_map_triple {α : Type} {L : List (α × Nat × Nat)} {p s : Nat} {x : α} :
    (p, s, x) ∈ L.map (fun e => (e.2.1, e.2.2, e.1)) ↔ (x, p, s) ∈ L := by
  rw [List.mem_map]
  constructor
  · rintro ⟨e, he, hfe⟩
    obtain ⟨y, pp, ss⟩ := e
    injection hfe with h1 h23
    injection h23 with h2 h3
    rw [← h1, ← h2, ← h3]
    exact he
  · intro h
    exact ⟨(x, p, s), h, rfl⟩

/-- C4: for every sequence of `PriorityQueue.add(item, priority)` calls starting
from the empty queue, popping until exhaustion yields exactly the surviving
`(item, priority, counter)` entries (a later `add` of the same item replaces its
prior priority) sorted strictly by `(priority, counter)` — i.e. non-decreasing
priority with ties broken by insertion order of the surviving add — and no item
is popped twice. -/
theorem c4_priority_queue_order {α : Type} [DecidableEq α] (ops : List (α × Nat)) :
    popAllEntries (addAll ops)
        = sortByKey ((survivingEntries ops).map (fun e => (e.2.1, e.2.2, e.1))) ∧
      List.Pairwise tripleKeyLt (popAllEntries (addAll ops)) ∧
      ((popAllEntries (addAll ops)).map (fun t => t.2.2)).Nodup := by
  obtain ⟨hsort, hbound, hseq, hiff, hkeys⟩ := addAll_inv ops
  have hpop : popAllEntries (addAll ops) = liveEntries (addAll ops).heap :=
    popAllEntries_live _
  have hsorted : List.Pairwise tripleKeyLt (liveEntries (addAll ops).heap) :=
    liveEntries_pairwise (fun a b x y hax hby hS => hS) hsort
  have hseqlive : List.Pairwise (fun t u : Nat × Nat × α => t.2.1 ≠ u.2.1)
      (liveEntries (addAll ops).heap) :=
    liveEntries_pairwise (fun a b x y hax hby hS => hS) hseq
  have hitems : List.Pairwise (fun t u : Nat × Nat × α => t.2.2 ≠ u.2.2)
      (liveEntries (addAll ops).heap) := by
    refine List.Pairwise.imp_of_mem ?_ hseqlive
    intro t u ht hu hne
    obtain ⟨p₁, s₁, x₁⟩ := t
    obtain ⟨p₂, s₂, x₂⟩ := u
    intro heq
    have heq2 : x₁ = x₂ := heq
    have h₁ := (hiff x₁ p₁ s₁).mpr (mem_liveEntries.mp ht)
    have h₂ := (hiff x₂ p₂ s₂).mpr (mem_liveEntries.mp hu)
    rw [heq2] at h₁
    have hpair := keys_nodup_unique hkeys h₁ h₂
    injection hpair with hp hs
    exact hne hs
  have hmemiff : ∀ t, t ∈ liveEntries (addAll ops).heap ↔
      t ∈ (survivingEntries ops).map (fun e => (e.2.1, e.2.2, e.1)) := by
    intro t
    obtain ⟨p, s, x⟩ := t
    rw [mem_liveEntries, mem_map_triple, ← addAll_entries]
    exact (hiff x p s).symm
  have hS_seq : List.Pairwise (fun t u : Nat × Nat × α => t.2.1 ≠ u.2.1)
      ((survivingEntries ops).map (fun e => (e.2.1, e.2.2, e.1))) :=
    List.pairwise_map.mpr (surviving_seq_pairwise ops)
  have hnodup_live : (liveEntries (addAll ops).heap).Nodup :=
    hseqlive.imp (fun h heq => h (congrArg (fun t : Nat × Nat × α => t.2.1) heq))
  have hnodup_S : ((survivingEntries ops).map (fun e => (e.2.1, e.2.2, e.1))).Nodup :=
    hS_seq.imp (fun h heq => h (congrArg (fun t : Nat × Nat × α => t.2.1) heq))
  have hperm : (liveEntries (addAll ops).heap).Perm
      ((survivingEntries ops).map (fun e => (e.2.1, e.2.2, e.1))) :=
    (List.perm_ext_iff_of_nodup hnodup_live hnodup_S).mpr hmemiff
  have hsortS := sortByKey_sorted hS_seq
  have hpermS : (liveEntries (addAll ops).heap).Perm
      (sortByKey ((survivingEntries ops).map (fun e => (e.2.1, e.2.2, e.1)))) :=
    hperm.trans (sortByKey_perm _).symm
  refine ⟨?_, ?_, ?_⟩
  · rw [hpop]
    exact List.eq_of_perm_of_sorted hpermS hsorted hsortS
  · rw [hpop]
    exact hsorted
  · rw [hpop]
    exact List.pairwise_map.mpr hitems

end Archon
